import Mathlib

/-!
Verification of the quantity parsing and proportional scaling core of the
sous-chef recipe application (`src/app.py`).

The embedding below is a shallow embedding of the Python functions
`parse_quantity` (app.py lines 42-71), `format_scaled_quantity`
(lines 73-91), the per-ingredient scaling step of the ingredient loop
(lines 524-535) and the `scaling_factor` computation (line 501).

Modelling conventions:
* Python floats are modelled as exact rationals (`ℚ`).  All quantities the
  pipeline manipulates come from short decimal or fractional literals, and
  every concrete statement below is checked on values where binary floating
  point and exact rational arithmetic agree.
* Python exceptions (`ZeroDivisionError`, `ValueError`, `IndexError`) are
  modelled with `Except PyErr`; a Python function that cannot raise returns a
  plain value.
* Python's `re` module is Unicode-aware; the regular expression
  `(\d+\s*\d*/\d+|\d*\.\d+|\d+/\d+|\d+)` is embedded for ASCII text: `\d` is
  `0`-`9` and `\s` is the ASCII whitespace class, which is what every input
  considered here uses.  The alternation is tried left to right exactly as in
  Python's backtracking engine; for this particular pattern greedy maximal
  munch is equivalent to full backtracking, because each quantifier is
  followed either by a character class disjoint from it or by the end of the
  alternative (see `matchAlt1` and its completeness lemma
  `pyMatch_isSome_iff_shape`).
-/

attribute [local semireducible] Rat.mul Rat.inv Rat.add Rat.sub

/-- Python exception kinds that the embedded code can raise. -/
inductive PyErr : Type where
  | zeroDivisionError : PyErr
  | valueError : PyErr
  | indexError : PyErr
deriving DecidableEq, Repr

/-- Decidable equality for the `Except` results of the embedded functions
(used only so that concrete runs can be checked with `decide`). -/
instance exceptDecEq {ε α : Type} [DecidableEq ε] [DecidableEq α] :
    DecidableEq (Except ε α) := fun a b =>
  match a, b with
  | .error e, .error f =>
      if h : e = f then isTrue (by rw [h]) else isFalse (fun c => by cases c; exact h rfl)
  | .ok x, .ok y =>
      if h : x = y then isTrue (by rw [h]) else isFalse (fun c => by cases c; exact h rfl)
  | .error _, .ok _ => isFalse (fun c => by cases c)
  | .ok _, .error _ => isFalse (fun c => by cases c)

/-- ASCII `\d` of Python's `re` module: the characters `0`-`9`. -/
def isDigitC (c : Char) : Bool :=
  decide (48 ≤ c.toNat ∧ c.toNat ≤ 57)

/-- ASCII `\s` of Python's `re` module and the whitespace class of
`str.strip` / `str.split`: space, tab, newline, vertical tab, form feed,
carriage return. -/
def isSpaceC (c : Char) : Bool :=
  decide (c.toNat = 32 ∨ (9 ≤ c.toNat ∧ c.toNat ≤ 13))

/-- The negation of `isSpaceC`, used by `str.split`. -/
def isNotSpaceC (c : Char) : Bool := !isSpaceC c

/-- Python `str.strip()` from the left. -/
def stripL (cs : List Char) : List Char := cs.dropWhile isSpaceC

/-- Python `str.strip()` from the right. -/
def stripR (cs : List Char) : List Char := (cs.reverse.dropWhile isSpaceC).reverse

/-- Python `str.strip()`: remove leading and trailing whitespace. -/
def pyStrip (cs : List Char) : List Char := stripR (stripL cs)

/-- Python `str.lower()` (ASCII range, via `Char.toLower`). -/
def lowerC (cs : List Char) : List Char := cs.map Char.toLower

/-- Value of a digit string read most-significant first (helper for `int()`
and `float()`). -/
def digitsToNat (cs : List Char) : ℕ :=
  cs.foldl (fun a c => 10 * a + (c.toNat - 48)) 0

/-- Python `int(str)`: strip whitespace, optional sign, then decimal digits;
anything else is a `ValueError` (modelled as `none`). -/
def pyInt (cs : List Char) : Option ℤ :=
  match pyStrip cs with
  | [] => none
  | '-' :: r => if r.isEmpty || !(r.all isDigitC) then none else some (-(digitsToNat r : ℤ))
  | '+' :: r => if r.isEmpty || !(r.all isDigitC) then none else some ((digitsToNat r : ℤ))
  | t => if t.all isDigitC then some ((digitsToNat t : ℤ)) else none

/-- Magnitude part of Python `float(str)`: `digits`, `digits.digits`,
`.digits` or `digits.` (exponents, `inf` and `nan` cannot occur in this
program and are not modelled). -/
def pyFloatMag (t : List Char) : Option ℚ :=
  let ip := t.takeWhile isDigitC
  match t.dropWhile isDigitC with
  | [] => if ip.isEmpty then none else some ((digitsToNat ip : ℚ))
  | '.' :: fp =>
      if fp.all isDigitC && !(ip.isEmpty && fp.isEmpty)
      then some ((digitsToNat ip : ℚ) + (digitsToNat fp : ℚ) / 10 ^ fp.length)
      else none
  | _ => none

/-- Python `float(str)`: strip whitespace, optional sign, then a decimal
magnitude; anything else is a `ValueError` (modelled as `none`). -/
def pyFloat (cs : List Char) : Option ℚ :=
  match pyStrip cs with
  | '-' :: r => (pyFloatMag r).map (fun v => -v)
  | '+' :: r => pyFloatMag r
  | t => pyFloatMag t

/-- First regex alternative `\d+\s*\d*/\d+` matched at the start of the
string (greedy; see the header comment for why maximal munch is faithful). -/
def matchAlt1 (cs : List Char) : Option (List Char) :=
  let d1 := cs.takeWhile isDigitC
  if d1.isEmpty then none else
  let r1 := cs.dropWhile isDigitC
  let w := r1.takeWhile isSpaceC
  let r2 := r1.dropWhile isSpaceC
  let d2 := r2.takeWhile isDigitC
  match r2.dropWhile isDigitC with
  | '/' :: r4 =>
      let d3 := r4.takeWhile isDigitC
      if d3.isEmpty then none else some (d1 ++ w ++ d2 ++ '/' :: d3)
  | _ => none

/-- Second regex alternative `\d*\.\d+` matched at the start of the string. -/
def matchAlt2 (cs : List Char) : Option (List Char) :=
  let d1 := cs.takeWhile isDigitC
  match cs.dropWhile isDigitC with
  | '.' :: r2 =>
      let d2 := r2.takeWhile isDigitC
      if d2.isEmpty then none else some (d1 ++ '.' :: d2)
  | _ => none

/-- Third regex alternative `\d+/\d+` matched at the start of the string. -/
def matchAlt3 (cs : List Char) : Option (List Char) :=
  let d1 := cs.takeWhile isDigitC
  if d1.isEmpty then none else
  match cs.dropWhile isDigitC with
  | '/' :: r2 =>
      let d2 := r2.takeWhile isDigitC
      if d2.isEmpty then none else some (d1 ++ '/' :: d2)
  | _ => none

/-- Fourth regex alternative `\d+` matched at the start of the string. -/
def matchAlt4 (cs : List Char) : Option (List Char) :=
  let d1 := cs.takeWhile isDigitC
  if d1.isEmpty then none else some d1

/-- `re.match(r'(\d+\s*\d*/\d+|\d*\.\d+|\d+/\d+|\d+)', s)`: the alternatives
are tried in order and `group(0)` of the first success is returned. -/
def pyMatch (cs : List Char) : Option (List Char) :=
  match matchAlt1 cs with
  | some m => some m
  | none =>
    match matchAlt2 cs with
    | some m => some m
    | none =>
      match matchAlt3 cs with
      | some m => some m
      | none => matchAlt4 cs

/-- Python `str.split()` (no separator): split on whitespace runs, with no
empty pieces.  Fuel-based so that the kernel can evaluate it; the fuel
`length + 1` always suffices. -/
def pySplitWsAux : ℕ → List Char → List (List Char)
  | 0, _ => []
  | fuel + 1, cs =>
    let t := cs.dropWhile isSpaceC
    if t.isEmpty then []
    else t.takeWhile isNotSpaceC :: pySplitWsAux fuel (t.dropWhile isNotSpaceC)

/-- Python `str.split()` with no separator argument. -/
def pySplitWs (cs : List Char) : List (List Char) := pySplitWsAux (cs.length + 1) cs

/-- Python `str.split('/')`. -/
def splitSlash : List Char → List (List Char)
  | [] => [[]]
  | c :: t =>
    if c = '/' then [] :: splitSlash t
    else
      match splitSlash t with
      | [] => [[c]]
      | h :: r => (c :: h) :: r

/-- Shallow embedding of `parse_quantity` (app.py lines 42-71).  Returns the
pair `(magnitude, unit)` on normal return and a `PyErr` when the Python code
raises. -/
def parse_quantity (s : String) : Except PyErr (Option ℚ × String) :=
  let q : List Char := lowerC (pyStrip s.data)
  match pyMatch q with
  | none => .ok (none, q.asString)
  | some m =>
    let number := pyStrip m
    let unit := pyStrip (q.drop number.length)
    if number.contains ' ' && number.contains '/' then
      match pySplitWs number with
      | p0 :: p1 :: _ =>
        match pyFloat p0 with
        | none => .error .valueError
        | some whole =>
          match splitSlash p1 with
          | [a, b] =>
            match pyInt a, pyInt b with
            | some nu, some de =>
              if de = 0 then .error .zeroDivisionError
              else .ok (some (whole + (nu : ℚ) / (de : ℚ)), unit.asString)
            | _, _ => .error .valueError
          | _ => .error .valueError
      | _ => .error .indexError
    else if number.contains '/' then
      match splitSlash number with
      | [a, b] =>
        match pyInt a, pyInt b with
        | some nu, some de =>
          if de = 0 then .error .zeroDivisionError
          else .ok (some ((nu : ℚ) / (de : ℚ)), unit.asString)
        | _, _ => .error .valueError
      | _ => .error .valueError
    else
      match pyFloat number with
      | some v => .ok (some v, unit.asString)
      | none => .ok (none, q.asString)

/-- Python `int(float)`: truncation toward zero. -/
def pyIntTrunc (x : ℚ) : ℤ := if 0 ≤ x then Rat.floor x else -(Rat.floor (-x))

/-- Round half to even, the rounding used by Python's fixed-point `format`. -/
def rhe (q : ℚ) : ℤ :=
  let f := Rat.floor q
  let d := q - (f : ℚ)
  if d < 1/2 then f
  else if 1/2 < d then f + 1
  else if f % 2 = 0 then f else f + 1

/-- Decimal digits of a natural number, most significant first (fuel-based so
the kernel can evaluate it; `n + 1` units of fuel always suffice). -/
def natDigitsAux : ℕ → ℕ → List Char
  | 0, _ => []
  | fuel + 1, n =>
    if n < 10 then [Nat.digitChar n]
    else natDigitsAux fuel (n / 10) ++ [Nat.digitChar (n % 10)]

/-- Decimal digit string of a natural number (`str(n)` for `n ≥ 0`). -/
def natDigits (n : ℕ) : List Char := natDigitsAux (n + 1) n

/-- Python `str(int)`. -/
def intRepr (w : ℤ) : List Char :=
  if w < 0 then '-' :: natDigits w.natAbs else natDigits w.toNat

/-- Two-digit rendering of a value `< 100` (helper for `%.2f`). -/
def twoDig (m : ℕ) : List Char := [Nat.digitChar (m / 10), Nat.digitChar (m % 10)]

/-- Python `f"{x:.2f}"`: fixed-point with two decimals, rounding half to
even. -/
def fmt2 (x : ℚ) : List Char :=
  let k := (rhe (100 * |x|)).toNat
  (if x < 0 then ['-'] else []) ++ natDigits (k / 100) ++ '.' :: twoDig (k % 100)

/-- Python `f"{int(number) if int(number) > 0 else ''} 1/2".strip()` (and the
same for 1/4 and 3/4). -/
def halfForm (w : ℤ) (frac : List Char) : List Char :=
  pyStrip ((if w > 0 then intRepr w else []) ++ ' ' :: frac)

/-- The number part computed by `format_scaled_quantity` before the unit is
attached (app.py lines 78-89). -/
def formattedNum (x : ℚ) : List Char :=
  let w := pyIntTrunc x
  let decimal := x - (w : ℚ)
  if decimal = 0 then intRepr w
  else if |decimal - 1/2| < 1/100 then halfForm w ['1', '/', '2']
  else if |decimal - 1/4| < 1/100 then halfForm w ['1', '/', '4']
  else if |decimal - 3/4| < 1/100 then halfForm w ['3', '/', '4']
  else fmt2 x

/-- Shallow embedding of `format_scaled_quantity` (app.py lines 73-91). -/
def format_scaled_quantity (number : Option ℚ) (unit_str : String) : String :=
  match number with
  | none => unit_str
  | some x => (pyStrip (formattedNum x ++ ' ' :: unit_str.data)).asString

/-- Shallow embedding of `scaling_factor = new_servings / original_servings`
(app.py line 501): plain division with no validation, raising
`ZeroDivisionError` when `original_servings = 0`. -/
def scaling_factor (new_servings original_servings : ℤ) : Except PyErr ℚ :=
  if original_servings = 0 then .error .zeroDivisionError
  else .ok ((new_servings : ℚ) / (original_servings : ℚ))

/-- Shallow embedding of the per-ingredient display step of the ingredient
loop (app.py lines 524-535): parse, then scale-and-format only when a
magnitude was found and the factor differs from 1. -/
def scale_ingredient (quantity_str : String) (factor : ℚ) : Except PyErr String :=
  match parse_quantity quantity_str with
  | .error e => .error e
  | .ok (q, u) =>
    match q with
    | some m =>
      if factor ≠ 1 then .ok (format_scaled_quantity (some (m * factor)) u)
      else .ok quantity_str
    | none => .ok quantity_str

/-- The numeric value rendered by `format_scaled_quantity` (the abstraction of
`formattedNum`: what the emitted number part re-parses to). -/
def snap (x : ℚ) : ℚ :=
  let w := pyIntTrunc x
  let decimal := x - (w : ℚ)
  if decimal = 0 then x
  else if |decimal - 1/2| < 1/100 then (w : ℚ) + 1/2
  else if |decimal - 1/4| < 1/100 then (w : ℚ) + 1/4
  else if |decimal - 3/4| < 1/100 then (w : ℚ) + 3/4
  else ((rhe (100 * x) : ℤ) : ℚ) / 100

/-- A unit string is capture-safe when gluing an integer number part in front
of it (`"<n> " ++ unit`) cannot be re-parsed as a mixed number: the unit must
not begin with an optional digit run immediately followed by `/` and a
digit. -/
def safeUnit (u : List Char) : Bool :=
  match u.dropWhile isDigitC with
  | '/' :: c :: _ => !isDigitC c
  | _ => true

/-- A nonempty run of digit characters. -/
def IsDigitRun (l : List Char) : Prop := l ≠ [] ∧ ∀ c ∈ l, isDigitC c

/-- A (possibly empty) run of whitespace characters. -/
def IsWsRun (l : List Char) : Prop := ∀ c ∈ l, isSpaceC c

/-- Modelled from the spec's words: a mixed-number numeric head
`<whole> <numerator>/<denominator>` with whole and fraction separated by
whitespace. -/
def SpecMixedHead (cs : List Char) : Prop :=
  ∃ d1 w d2 d3 rest, cs = d1 ++ w ++ d2 ++ '/' :: (d3 ++ rest) ∧
    IsDigitRun d1 ∧ w ≠ [] ∧ IsWsRun w ∧ IsDigitRun d2 ∧ IsDigitRun d3

/-- Modelled from the spec's words: a decimal numeric head
`<digits>.<digits>`. -/
def SpecDecimalHead (cs : List Char) : Prop :=
  ∃ d1 d2 rest, cs = d1 ++ '.' :: (d2 ++ rest) ∧ IsDigitRun d1 ∧ IsDigitRun d2

/-- Modelled from the spec's words: a simple-fraction numeric head
`<numerator>/<denominator>`. -/
def SpecFractionHead (cs : List Char) : Prop :=
  ∃ d1 d2 rest, cs = d1 ++ '/' :: (d2 ++ rest) ∧ IsDigitRun d1 ∧ IsDigitRun d2

/-- A plain-integer numeric head `<digits>` (shared by the spec's shape list
and the regular expression). -/
def SpecIntHead (cs : List Char) : Prop :=
  ∃ d1 rest, cs = d1 ++ rest ∧ IsDigitRun d1

/-- Modelled from the spec's words: the four numeric-head shapes the spec
says are recognized, and no others. -/
def SpecNumericHead (cs : List Char) : Prop :=
  SpecMixedHead cs ∨ SpecDecimalHead cs ∨ SpecFractionHead cs ∨ SpecIntHead cs

/-- The slash shape actually accepted by the first regex alternative
`\d+\s*\d*/\d+`: separating whitespace and the numerator digit run are both
optional. -/
def RegexMixedHead (cs : List Char) : Prop :=
  ∃ d1 w d2 d3 rest, cs = d1 ++ w ++ d2 ++ '/' :: (d3 ++ rest) ∧
    IsDigitRun d1 ∧ IsWsRun w ∧ (∀ c ∈ d2, isDigitC c) ∧ IsDigitRun d3

/-- The decimal shape actually accepted by the second regex alternative
`\d*\.\d+`: the leading digit run is optional. -/
def RegexDecimalHead (cs : List Char) : Prop :=
  ∃ d1 d2 rest, cs = d1 ++ '.' :: (d2 ++ rest) ∧ (∀ c ∈ d1, isDigitC c) ∧ IsDigitRun d2

/-! ## Claim theorems: concrete evaluations -/

/-- C7: `parse_quantity` returns the specified vectors: `"1 1/2 cups"` gives
magnitude 1.5 and unit `"cups"`; `"500g"` gives magnitude 500.0 and unit
`"g"`; `"2/3 cup"` gives magnitude 2/3 ≈ 0.6667 and unit `"cup"`. -/
theorem parse_quantity_vectors :
    parse_quantity "1 1/2 cups" = .ok (some (3/2 : ℚ), "cups") ∧
    parse_quantity "500g" = .ok (some (500 : ℚ), "g") ∧
    parse_quantity "2/3 cup" = .ok (some (2/3 : ℚ), "cup") ∧
    |(2/3 : ℚ) - 6667/10000| < 1/10000 := by
  refine ⟨by decide, by decide, by decide, ?_⟩
  rw [abs_lt]
  constructor <;> norm_num

/-- C1: the claim (with the spec) says `parse_quantity` never raises, and
that a malformed fraction with zero denominator such as `"1/0"` degrades to
`magnitude = None`; the code instead reaches the unguarded division
`numerator / denominator` and raises `ZeroDivisionError`. -/
theorem parse_quantity_one_over_zero_raises :
    parse_quantity "1/0" = .error .zeroDivisionError := by decide

/-- C5: the claim says zero or negative servings are rejected with an
InvalidArgument-kind failure; the code computes
`new_servings / original_servings` with no validation at all: a zero
`original_servings` raises `ZeroDivisionError`, and negative servings
silently produce a negative scale factor. -/
theorem scaling_factor_unvalidated :
    scaling_factor 4 0 = .error .zeroDivisionError ∧
    scaling_factor 4 (-2) = .ok (-2 : ℚ) := by
  refine ⟨by decide, by decide⟩

/-- C2 counterexample: the magnitude 1.004 has fractional part 0.004, within
0.01 of 0, yet `format_scaled_quantity` does not return just the integer
part `"1 cup"`: the zero case is compared exactly (`decimal == 0.0`), so the
value falls through to the two-decimal branch and renders `"1.00 cup"`. -/
theorem format_near_zero_not_integer :
    (251/250 : ℚ) - (pyIntTrunc (251/250) : ℚ) < 1/100 ∧
    0 < (251/250 : ℚ) - (pyIntTrunc (251/250) : ℚ) ∧
    format_scaled_quantity (some (251/250)) "cup" = "1.00 cup" ∧
    format_scaled_quantity (some (251/250)) "cup" ≠ "1 cup" := by
  refine ⟨by norm_num [pyIntTrunc, Rat.floor], by norm_num [pyIntTrunc, Rat.floor],
    by decide, by decide⟩

/-- C9: `format_scaled_quantity` returns the specified vectors, and for every
magnitude and unit the output is the formatted number and the unit joined by
a single space, with surrounding whitespace stripped (so nothing leads or
trails when either side is empty). -/
theorem format_scaled_quantity_vectors :
    format_scaled_quantity (some 1) "cup" = "1 cup" ∧
    format_scaled_quantity (some (1/2)) "cup" = "1/2 cup" ∧
    format_scaled_quantity (some (3/2)) "cup" = "1 1/2 cup" ∧
    format_scaled_quantity (some (33/100)) "cup" = "0.33 cup" ∧
    ∀ (x : ℚ) (u : String),
      format_scaled_quantity (some x) u = (pyStrip (formattedNum x ++ ' ' :: u.data)).asString :=
  ⟨by decide, by decide, by decide, by decide, fun _ _ => rfl⟩

/-- C4 counterexample: for the quantity string `"2.26341 cups"` and the
positive factor `f = 10/9` (servings 9 → 10), scaling by `f` and re-parsing
gives 2.51, scaling that by `1/f` snaps to 2 1/4, and the final magnitude
9/4 differs from the original magnitude 2.26341 by 0.01341 > 0.01. -/
theorem inverse_scaling_exceeds_tolerance :
    parse_quantity "2.26341 cups" = .ok (some (226341/100000 : ℚ), "cups") ∧
    scale_ingredient "2.26341 cups" (10/9) = .ok "2.51 cups" ∧
    scale_ingredient "2.51 cups" (9/10) = .ok "2 1/4 cups" ∧
    parse_quantity "2 1/4 cups" = .ok (some (9/4 : ℚ), "cups") ∧
    ¬ (|(9/4 : ℚ) - 226341/100000| ≤ 1/100) := by
  refine ⟨by decide, by decide, by decide, by decide, ?_⟩
  rw [not_le, lt_abs]
  right
  norm_num

/-! ## Helper lemmas -/

theorem mem_pyStrip {c : Char} {l : List Char} (h : c ∈ pyStrip l) : c ∈ l := by
  simp only [pyStrip, stripR, stripL, List.mem_reverse] at h
  exact List.dropWhile_subset _ (List.mem_reverse.1 (List.dropWhile_subset _ h))

theorem mem_pySplitWsAux {c : Char} {p : List Char} :
    ∀ {fuel : ℕ} {cs : List Char}, p ∈ pySplitWsAux fuel cs → c ∈ p → c ∈ cs := by
  intro fuel
  induction fuel with
  | zero => intro cs hp; simp [pySplitWsAux] at hp
  | succ n ih =>
    intro cs hp hc
    simp only [pySplitWsAux] at hp
    split at hp
    · simp at hp
    · rcases List.mem_cons.1 hp with rfl | hp
      · exact List.dropWhile_subset _ (List.takeWhile_subset _ hc)
      · exact List.dropWhile_subset _ (List.dropWhile_subset _ (ih hp hc))

theorem mem_splitSlash {c : Char} {p l : List Char} (hp : p ∈ splitSlash l) (hc : c ∈ p) :
    c ∈ l := by
  induction l generalizing p with
  | nil =>
    simp [splitSlash] at hp
    subst hp
    simp at hc
  | cons a t ih =>
    simp only [splitSlash] at hp
    split at hp
    · rcases List.mem_cons.1 hp with rfl | hp
      · simp at hc
      · exact List.mem_cons_of_mem _ (ih hp hc)
    · split at hp
      · rcases List.mem_cons.1 hp with rfl | hp
        · simp only [List.mem_singleton] at hc
          simp [hc]
        · simp at hp
      · next h r heq =>
        rcases List.mem_cons.1 hp with rfl | hp
        · rcases List.mem_cons.1 hc with rfl | hc
          · exact List.mem_cons_self _ _
          · exact List.mem_cons_of_mem _ (ih (heq ▸ List.mem_cons_self h r) hc)
        · exact List.mem_cons_of_mem _ (ih (heq ▸ List.mem_cons_of_mem h hp) hc)

theorem mem_matchAlt1 {cs m : List Char} (h : matchAlt1 cs = some m) {c : Char}
    (hc : c ∈ m) : isDigitC c = true ∨ isSpaceC c = true ∨ c = '/' := by
  simp only [matchAlt1] at h
  split at h
  · exact absurd h (by simp)
  · split at h
    · split at h
      · exact absurd h (by simp)
      · injection h with h
        subst h
        simp only [List.mem_append, List.mem_cons] at hc
        rcases hc with ((h1 | h1) | h1) | rfl | h1
        · exact Or.inl (List.mem_takeWhile_imp h1)
        · exact Or.inr (Or.inl (List.mem_takeWhile_imp h1))
        · exact Or.inl (List.mem_takeWhile_imp h1)
        · exact Or.inr (Or.inr rfl)
        · exact Or.inl (List.mem_takeWhile_imp h1)
    · exact absurd h (by simp)

theorem mem_matchAlt2 {cs m : List Char} (h : matchAlt2 cs = some m) {c : Char}
    (hc : c ∈ m) : isDigitC c = true ∨ c = '.' := by
  simp only [matchAlt2] at h
  split at h
  · split at h
    · exact absurd h (by simp)
    · injection h with h
      subst h
      simp only [List.mem_append, List.mem_cons] at hc
      rcases hc with h1 | rfl | h1
      · exact Or.inl (List.mem_takeWhile_imp h1)
      · exact Or.inr rfl
      · exact Or.inl (List.mem_takeWhile_imp h1)
  · exact absurd h (by simp)

theorem mem_matchAlt3 {cs m : List Char} (h : matchAlt3 cs = some m) {c : Char}
    (hc : c ∈ m) : isDigitC c = true ∨ c = '/' := by
  simp only [matchAlt3] at h
  split at h
  · exact absurd h (by simp)
  · split at h
    · split at h
      · exact absurd h (by simp)
      · injection h with h
        subst h
        simp only [List.mem_append, List.mem_cons] at hc
        rcases hc with h1 | rfl | h1
        · exact Or.inl (List.mem_takeWhile_imp h1)
        · exact Or.inr rfl
        · exact Or.inl (List.mem_takeWhile_imp h1)
    · exact absurd h (by simp)

theorem mem_matchAlt4 {cs m : List Char} (h : matchAlt4 cs = some m) {c : Char}
    (hc : c ∈ m) : isDigitC c = true := by
  simp only [matchAlt4] at h
  split at h
  · exact absurd h (by simp)
  · injection h with h
    subst h
    exact List.mem_takeWhile_imp hc

/-- Character classification for the regex match: `group(0)` only contains
digits, whitespace, `/` and `.`. -/
theorem mem_pyMatch {cs m : List Char} (h : pyMatch cs = some m) {c : Char} (hc : c ∈ m) :
    isDigitC c = true ∨ isSpaceC c = true ∨ c = '/' ∨ c = '.' := by
  unfold pyMatch at h
  split at h
  · next h1 =>
    injection h with h
    subst h
    rcases mem_matchAlt1 h1 hc with h2 | h2 | h2
    · exact Or.inl h2
    · exact Or.inr (Or.inl h2)
    · exact Or.inr (Or.inr (Or.inl h2))
  · split at h
    · next h1 =>
      injection h with h
      subst h
      rcases mem_matchAlt2 h1 hc with h2 | h2
      · exact Or.inl h2
      · exact Or.inr (Or.inr (Or.inr h2))
    · split at h
      · next h1 =>
        injection h with h
        subst h
        rcases mem_matchAlt3 h1 hc with h2 | h2
        · exact Or.inl h2
        · exact Or.inr (Or.inr (Or.inl h2))
      · rcases mem_matchAlt4 h hc with h2
        exact Or.inl h2

theorem pyFloatMag_nonneg {t : List Char} {v : ℚ} (h : pyFloatMag t = some v) : 0 ≤ v := by
  simp only [pyFloatMag] at h
  split at h
  · split at h
    · exact absurd h (by simp)
    · injection h with h
      subst h
      positivity
  · split at h
    · injection h with h
      subst h
      positivity
    · exact absurd h (by simp)
  · exact absurd h (by simp)

theorem pyFloat_nonneg {cs : List Char} {v : ℚ} (h : pyFloat cs = some v)
    (hm : '-' ∉ pyStrip cs) : 0 ≤ v := by
  unfold pyFloat at h
  split at h
  · next r heq => exact absurd (heq ▸ List.mem_cons_self '-' r) hm
  · exact pyFloatMag_nonneg h
  · exact pyFloatMag_nonneg h

theorem pyInt_nonneg {cs : List Char} {v : ℤ} (h : pyInt cs = some v)
    (hm : '-' ∉ pyStrip cs) : 0 ≤ v := by
  unfold pyInt at h
  split at h
  · exact absurd h (by simp)
  · next r heq => exact absurd (heq ▸ List.mem_cons_self '-' r) hm
  · split at h
    · exact absurd h (by simp)
    · injection h with h
      subst h
      positivity
  · split at h
    · injection h with h
      subst h
      positivity
    · exact absurd h (by simp)

theorem no_minus_of_mem_match {cs mm : List Char} (hmatch : pyMatch cs = some mm)
    {l : List Char} (hsub : ∀ c, c ∈ l → c ∈ mm) : '-' ∉ pyStrip l := by
  intro hmem
  have h2 := mem_pyMatch hmatch (hsub _ (mem_pyStrip hmem))
  revert h2
  decide

/-- Shared core of claim C10: any magnitude returned by `parse_quantity` is
nonnegative. -/
theorem parse_nonneg_core {s : String} {m : ℚ} {u : String}
    (h : parse_quantity s = .ok (some m, u)) : 0 ≤ m := by
  simp only [parse_quantity] at h
  split at h
  · exact absurd h (by simp)
  · next mm hmatch =>
    split at h
    · -- mixed-number branch
      split at h
      · next p0 p1 rest heq =>
        split at h
        · exact absurd h (by simp)
        · next whole hwhole =>
          split at h
          · next a b heq3 =>
            split at h
            · next nu de hnu hde =>
              split at h
              · exact absurd h (by simp)
              · injection h with h
                injection h with h1 h2
                injection h1 with h1
                subst h1
                have hp0 : p0 ∈ pySplitWs (pyStrip mm) := heq ▸ List.mem_cons_self _ _
                have ha : a ∈ splitSlash p1 := heq3 ▸ List.mem_cons_self _ _
                have hb : b ∈ splitSlash p1 := heq3 ▸ List.mem_cons_of_mem _ (List.mem_cons_self _ _)
                have hp1 : p1 ∈ pySplitWs (pyStrip mm) :=
                  heq ▸ List.mem_cons_of_mem _ (List.mem_cons_self _ _)
                have hwnn : (0:ℚ) ≤ whole := by
                  refine pyFloat_nonneg hwhole (no_minus_of_mem_match hmatch fun c hc => ?_)
                  exact mem_pyStrip (mem_pySplitWsAux hp0 hc)
                have hnunn : (0:ℤ) ≤ nu := by
                  refine pyInt_nonneg hnu (no_minus_of_mem_match hmatch fun c hc => ?_)
                  exact mem_pyStrip (mem_pySplitWsAux hp1 (mem_splitSlash ha hc))
                have hdenn : (0:ℤ) ≤ de := by
                  refine pyInt_nonneg hde (no_minus_of_mem_match hmatch fun c hc => ?_)
                  exact mem_pyStrip (mem_pySplitWsAux hp1 (mem_splitSlash hb hc))
                have : (0:ℚ) ≤ (nu : ℚ) / (de : ℚ) := by
                  apply div_nonneg <;> exact_mod_cast le_refl _ |>.trans (by exact_mod_cast ‹_›)
                linarith
            · exact absurd h (by simp)
          · exact absurd h (by simp)
      · exact absurd h (by simp)
    · split at h
      · -- simple-fraction branch
        split at h
        · next a b heq3 =>
          split at h
          · next nu de hnu hde =>
            split at h
            · exact absurd h (by simp)
            · injection h with h
              injection h with h1 h2
              injection h1 with h1
              subst h1
              have ha : a ∈ splitSlash (pyStrip mm) := heq3 ▸ List.mem_cons_self _ _
              have hb : b ∈ splitSlash (pyStrip mm) :=
                heq3 ▸ List.mem_cons_of_mem _ (List.mem_cons_self _ _)
              have hnunn : (0:ℤ) ≤ nu := by
                refine pyInt_nonneg hnu (no_minus_of_mem_match hmatch fun c hc => ?_)
                exact mem_pyStrip (mem_splitSlash ha hc)
              have hdenn : (0:ℤ) ≤ de := by
                refine pyInt_nonneg hde (no_minus_of_mem_match hmatch fun c hc => ?_)
                exact mem_pyStrip (mem_splitSlash hb hc)
              apply div_nonneg <;> exact_mod_cast ‹_›
          · exact absurd h (by simp)
        · exact absurd h (by simp)
      · -- decimal / integer branch
        split at h
        · next v hv =>
          injection h with h
          injection h with h1 h2
          injection h1 with h1
          subst h1
          refine pyFloat_nonneg hv (no_minus_of_mem_match hmatch fun c hc => ?_)
          exact mem_pyStrip hc
        · exact absurd h (by simp)

/-- C10: whenever `parse_quantity` returns a magnitude, that magnitude is
nonnegative: the numeric-head pattern admits no sign. -/
theorem parse_quantity_nonneg :
    ∀ (s : String) (m : ℚ) (u : String),
      parse_quantity s = .ok (some m, u) → 0 ≤ m :=
  fun _ _ _ h => parse_nonneg_core h

/-- C10 witness: the theorem applied to the concrete parse of `"3 cups"`. -/
theorem parse_quantity_nonneg_witness :
    parse_quantity "3 cups" = .ok (some (3:ℚ), "cups") ∧ (0:ℚ) ≤ 3 :=
  ⟨by decide, parse_quantity_nonneg "3 cups" 3 "cups" (by decide)⟩

/-- C6: when the parse returns no magnitude or the scale factor is 1, the
display step returns the original quantity string unchanged (the formatter is
bypassed). -/
theorem scale_ingredient_passthrough :
    ∀ (s : String) (f : ℚ) (m : Option ℚ) (u : String),
      parse_quantity s = .ok (m, u) → m = none ∨ f = 1 →
      scale_ingredient s f = .ok s := by
  intro s f m u h hm
  unfold scale_ingredient
  rw [h]
  rcases hm with rfl | rfl
  · rfl
  · cases m with
    | none => rfl
    | some mm => simp

/-- C6 witness: the theorem applied at factor 1 to `"2 cups"`. -/
theorem scale_ingredient_passthrough_witness :
    parse_quantity "2 cups" = .ok (some (2:ℚ), "cups") ∧
    scale_ingredient "2 cups" 1 = .ok "2 cups" :=
  ⟨by decide, scale_ingredient_passthrough "2 cups" 1 (some 2) "cups" (by decide) (Or.inr rfl)⟩

/-- C8: with no numeric head at the start of the normalized string,
`parse_quantity` returns no magnitude and the entire normalized (stripped,
lowercased) input as the unit; in particular `"a pinch"` round-trips. -/
theorem parse_quantity_no_numeric_head :
    (∀ s : String, pyMatch (lowerC (pyStrip s.data)) = none →
      parse_quantity s = .ok (none, (lowerC (pyStrip s.data)).asString)) ∧
    parse_quantity "a pinch" = .ok (none, "a pinch") := by
  constructor
  · intro s h
    simp only [parse_quantity, h]
  · decide

/-- C8 witness: the theorem applied to `"a pinch"`. -/
theorem parse_quantity_no_numeric_head_witness :
    pyMatch (lowerC (pyStrip "a pinch".data)) = none ∧
    parse_quantity "a pinch" = .ok (none, (lowerC (pyStrip "a pinch".data)).asString) :=
  ⟨by decide, parse_quantity_no_numeric_head.1 "a pinch" (by decide)⟩

/-! ## Shape characterization of the regex -/

theorem matchAlt1_shape {cs m : List Char} (h : matchAlt1 cs = some m) : RegexMixedHead cs := by
  simp only [matchAlt1] at h
  split at h
  · exact absurd h (by simp)
  · next hne =>
    split at h
    · next r4 heq4 =>
      split at h
      · exact absurd h (by simp)
      · next hne3 =>
        refine ⟨cs.takeWhile isDigitC,
          (cs.dropWhile isDigitC).takeWhile isSpaceC,
          ((cs.dropWhile isDigitC).dropWhile isSpaceC).takeWhile isDigitC,
          r4.takeWhile isDigitC, r4.dropWhile isDigitC, ?_, ?_, ?_, ?_, ?_⟩
        · conv_lhs => rw [← List.takeWhile_append_dropWhile isDigitC cs,
            ← List.takeWhile_append_dropWhile isSpaceC (cs.dropWhile isDigitC),
            ← List.takeWhile_append_dropWhile isDigitC ((cs.dropWhile isDigitC).dropWhile isSpaceC),
            heq4, ← List.takeWhile_append_dropWhile isDigitC r4]
          simp [List.append_assoc]
        · exact ⟨by simpa using hne, fun c hc => List.mem_takeWhile_imp hc⟩
        · exact fun c hc => List.mem_takeWhile_imp hc
        · exact fun c hc => List.mem_takeWhile_imp hc
        · exact ⟨by simpa using hne3, fun c hc => List.mem_takeWhile_imp hc⟩
    · exact absurd h (by simp)

theorem matchAlt2_shape {cs m : List Char} (h : matchAlt2 cs = some m) : RegexDecimalHead cs := by
  simp only [matchAlt2] at h
  split at h
  · next r2 heq2 =>
    split at h
    · exact absurd h (by simp)
    · next hne2 =>
      refine ⟨cs.takeWhile isDigitC, r2.takeWhile isDigitC, r2.dropWhile isDigitC, ?_, ?_, ?_⟩
      · conv_lhs => rw [← List.takeWhile_append_dropWhile isDigitC cs, heq2,
          ← List.takeWhile_append_dropWhile isDigitC r2]
      · exact fun c hc => List.mem_takeWhile_imp hc
      · exact ⟨by simpa using hne2, fun c hc => List.mem_takeWhile_imp hc⟩
  · exact absurd h (by simp)

theorem matchAlt3_shape {cs m : List Char} (h : matchAlt3 cs = some m) : RegexMixedHead cs := by
  simp only [matchAlt3] at h
  split at h
  · exact absurd h (by simp)
  · next hne =>
    split at h
    · next r2 heq2 =>
      split at h
      · exact absurd h (by simp)
      · next hne2 =>
        refine ⟨cs.takeWhile isDigitC, [], [], r2.takeWhile isDigitC, r2.dropWhile isDigitC,
          ?_, ?_, ?_, ?_, ?_⟩
        · conv_lhs => rw [← List.takeWhile_append_dropWhile isDigitC cs, heq2,
            ← List.takeWhile_append_dropWhile isDigitC r2]
          simp
        · exact ⟨by simpa using hne, fun c hc => List.mem_takeWhile_imp hc⟩
        · exact fun c hc => by simp at hc
        · exact fun c hc => by simp at hc
        · exact ⟨by simpa using hne2, fun c hc => List.mem_takeWhile_imp hc⟩
    · exact absurd h (by simp)

theorem matchAlt4_shape {cs m : List Char} (h : matchAlt4 cs = some m) : SpecIntHead cs := by
  simp only [matchAlt4] at h
  split at h
  · exact absurd h (by simp)
  · next hne =>
    exact ⟨cs.takeWhile isDigitC, cs.dropWhile isDigitC,
      (List.takeWhile_append_dropWhile isDigitC cs).symm,
      by simpa using hne, fun c hc => List.mem_takeWhile_imp hc⟩

theorem digit_head_isSome {c : Char} {t : List Char} (h : isDigitC c = true) :
    (pyMatch (c :: t)).isSome = true := by
  unfold pyMatch
  split
  · simp
  · split
    · simp
    · split
      · simp
      · simp [matchAlt4, List.takeWhile_cons_of_pos h]

theorem isSome_pyMatch_of_alt2 {cs : List Char} (h : (matchAlt2 cs).isSome = true) :
    (pyMatch cs).isSome = true := by
  unfold pyMatch
  split
  · simp
  · split
    · simp
    · next heq =>
      rw [heq] at h
      simp at h

/-- C3 amended: the numeric heads accepted by the regex are exactly the slash
shape `<digits> <opt-ws> <opt-digits> / <digits>` (mixed numbers and simple
fractions, separator whitespace optional), the decimal shape
`<opt-digits> . <digits>` (leading digit run optional), and the plain integer
shape `<digits>`. -/
theorem pyMatch_isSome_iff_shape :
    ∀ cs : List Char, (pyMatch cs).isSome = true ↔
      (RegexMixedHead cs ∨ RegexDecimalHead cs ∨ SpecIntHead cs) := by
  intro cs
  constructor
  · intro h
    unfold pyMatch at h
    split at h
    · exact Or.inl (matchAlt1_shape ‹_›)
    · split at h
      · exact Or.inr (Or.inl (matchAlt2_shape ‹_›))
      · split at h
        · exact Or.inl (matchAlt3_shape ‹_›)
        · cases h4 : matchAlt4 cs with
          | none => rw [h4] at h; simp at h
          | some mm => exact Or.inr (Or.inr (matchAlt4_shape h4))
  · intro h
    rcases h with ⟨d1, w, d2, d3, rest, heq, hd1, hw, hd2, hd3⟩ |
      ⟨d1, d2, rest, heq, hd1, hd2⟩ | ⟨d1, rest, heq, hd1⟩
    · rcases d1 with _ | ⟨c, t⟩
      · exact absurd rfl hd1.1
      · rw [heq]
        simp only [List.cons_append]
        exact digit_head_isSome (hd1.2 c (List.mem_cons_self _ _))
    · rcases d1 with _ | ⟨c, t⟩
      · rcases d2 with _ | ⟨c2, t2⟩
        · exact absurd rfl hd2.1
        · rw [heq]
          simp only [List.nil_append, List.cons_append]
          have hc2 : isDigitC c2 = true := hd2.2 c2 (List.mem_cons_self _ _)
          have hdot : ¬ isDigitC '.' = true := by decide
          apply isSome_pyMatch_of_alt2
          simp [matchAlt2, List.dropWhile_cons_of_neg hdot, List.takeWhile_cons_of_pos hc2]
      · rw [heq]
        simp only [List.cons_append]
        exact digit_head_isSome (hd1 c (List.mem_cons_self _ _))
    · rcases d1 with _ | ⟨c, t⟩
      · exact absurd rfl hd1.1
      · rw [heq]
        simp only [List.cons_append]
        exact digit_head_isSome (hd1.2 c (List.mem_cons_self _ _))

/-- C3 counterexample: `".5 cup"` is accepted as numeric by the code (its
head `.5` matches the decimal alternative `\d*\.\d+`, whose leading digit run
is optional), but none of the four numeric-head shapes claimed by the spec
matches it. -/
theorem spec_shapes_miss_bare_decimal :
    (pyMatch ".5 cup".data).isSome = true ∧
    parse_quantity ".5 cup" = .ok (some (1/2 : ℚ), "cup") ∧
    ¬ SpecNumericHead ".5 cup".data := by
  refine ⟨by decide, by decide, ?_⟩
  have key : ∀ (d1 X : List Char), ".5 cup".data = d1 ++ X → IsDigitRun d1 → False := by
    intro d1 X heq hd1
    rcases d1 with _ | ⟨c, t⟩
    · exact hd1.1 rfl
    · have hc : '.' = c := by simpa using congrArg List.head? heq
      have hd := hd1.2 c (List.mem_cons_self _ _)
      rw [← hc] at hd
      exact absurd hd (by decide)
  rintro (⟨d1, w, d2, d3, rest, heq, hd1, -⟩ |
    ⟨d1, d2, rest, heq, hd1, -⟩ | ⟨d1, d2, rest, heq, hd1, -⟩ | ⟨d1, rest, heq, hd1⟩)
  · simp only [List.append_assoc] at heq
    exact key _ _ heq hd1
  · exact key _ _ heq hd1
  · exact key _ _ heq hd1
  · exact key _ _ heq hd1

/-- C2 amended: `format_scaled_quantity` returns just the integer part
exactly when the fractional part is 0 (the code compares `decimal == 0.0`
exactly; the 0.01 tolerance band applies only to the quarter fractions), and
an integer part of 0 renders as `"0"`. -/
theorem format_exact_zero_integer :
    (∀ (x : ℚ) (u : String), x - (pyIntTrunc x : ℚ) = 0 →
      format_scaled_quantity (some x) u =
        (pyStrip (intRepr (pyIntTrunc x) ++ ' ' :: u.data)).asString) ∧
    format_scaled_quantity (some 0) "cup" = "0 cup" := by
  constructor
  · intro x u h0
    show (pyStrip (formattedNum x ++ ' ' :: u.data)).asString = _
    simp only [formattedNum]
    rw [if_pos h0]
  · decide

/-- C2 amended witness: the theorem applied to the integer magnitude 3. -/
theorem format_exact_zero_integer_witness :
    (3 : ℚ) - (pyIntTrunc 3 : ℚ) = 0 ∧
    format_scaled_quantity (some 3) "cup" =
      (pyStrip (intRepr (pyIntTrunc 3) ++ ' ' :: "cup".data)).asString :=
  ⟨by decide, format_exact_zero_integer.1 3 "cup" (by decide)⟩

/-! ## Character and strip infrastructure for the round-trip lemma -/

theorem char_toNat_ofNat {n : ℕ} (h : n < 55296) : (Char.ofNat n).toNat = n := by
  rw [Char.ofNat, dif_pos (Or.inl h)]
  rfl

theorem toLower_eq_self {c : Char} (h : ¬(65 ≤ c.toNat ∧ c.toNat ≤ 90)) : c.toLower = c := by
  rw [Char.toLower, if_neg]
  intro hc
  exact h ⟨hc.1, hc.2⟩

theorem toLower_toLower (c : Char) : c.toLower.toLower = c.toLower := by
  by_cases h : 65 ≤ c.toNat ∧ c.toNat ≤ 90
  · have h1 : c.toLower = Char.ofNat (c.toNat + 32) := by
      rw [Char.toLower, if_pos ⟨h.1, h.2⟩]
    have h2 : (c.toLower).toNat = c.toNat + 32 := by
      rw [h1]
      exact char_toNat_ofNat (by omega)
    apply toLower_eq_self
    rw [h2]
    omega
  · rw [toLower_eq_self h]
    exact toLower_eq_self h

theorem map_eq_self_iff_forall {f : Char → Char} {l : List Char} :
    l.map f = l ↔ ∀ c ∈ l, f c = c := by
  induction l with
  | nil => simp
  | cons a t ih =>
    simp only [List.map_cons, List.cons.injEq, List.mem_cons, forall_eq_or_imp]
    exact and_congr Iff.rfl ih

theorem lowerC_idem (l : List Char) : lowerC (lowerC l) = lowerC l := by
  apply map_eq_self_iff_forall.2
  intro c hc
  rcases List.mem_map.1 hc with ⟨d, _, rfl⟩
  exact toLower_toLower d

theorem toLower_of_digit {c : Char} (h : isDigitC c = true) : c.toLower = c := by
  simp only [isDigitC, decide_eq_true_eq] at h
  exact toLower_eq_self (by omega)

theorem digit_not_space {c : Char} (h : isDigitC c = true) : isSpaceC c = false := by
  simp only [isDigitC, decide_eq_true_eq] at h
  simp only [isSpaceC, decide_eq_false_iff_not]
  omega

theorem digit_ne {c : Char} (h : isDigitC c = true) :
    c ≠ '-' ∧ c ≠ '+' ∧ c ≠ '/' ∧ c ≠ '.' ∧ c ≠ ' ' := by
  simp only [isDigitC, decide_eq_true_eq] at h
  refine ⟨?_, ?_, ?_, ?_, ?_⟩ <;> (rintro rfl; revert h; decide)

/-- A list whose head (if any) is not whitespace survives `dropWhile`. -/
theorem dropWhile_eq_self_of_head {l : List Char}
    (h : ∀ c, l.head? = some c → isSpaceC c = false) : l.dropWhile isSpaceC = l := by
  cases l with
  | nil => rfl
  | cons a t => exact List.dropWhile_cons_of_neg (by simp [h a rfl])

theorem pyStrip_eq_self_of_ends {l : List Char}
    (h1 : ∀ c, l.head? = some c → isSpaceC c = false)
    (h2 : ∀ c, l.getLast? = some c → isSpaceC c = false) : pyStrip l = l := by
  unfold pyStrip stripR stripL
  rw [dropWhile_eq_self_of_head h1]
  rw [dropWhile_eq_self_of_head (fun c hc => h2 c (by rwa [List.head?_reverse] at hc))]
  exact List.reverse_reverse l

theorem length_stripL_le (l : List Char) : (stripL l).length ≤ l.length :=
  (List.dropWhile_sublist _).length_le

theorem length_stripR_le (l : List Char) : (stripR l).length ≤ l.length := by
  unfold stripR
  rw [List.length_reverse]
  calc (l.reverse.dropWhile isSpaceC).length ≤ l.reverse.length :=
        (List.dropWhile_sublist _).length_le
    _ = l.length := List.length_reverse _

theorem length_pyStrip_le (l : List Char) : (pyStrip l).length ≤ l.length :=
  (length_stripR_le _).trans (length_stripL_le _)

/-- A string equal to its own strip starts with a non-whitespace character. -/
theorem stripped_dropWhile {u : List Char} (h : pyStrip u = u) :
    u.dropWhile isSpaceC = u := by
  cases hu : u with
  | nil => rfl
  | cons c t =>
    apply List.dropWhile_cons_of_neg
    intro hws
    have hlen : (pyStrip (c :: t)).length ≤ t.length := by
      unfold pyStrip stripL
      rw [List.dropWhile_cons_of_pos hws]
      exact (length_stripR_le _).trans (List.dropWhile_sublist _).length_le
    rw [hu] at h
    rw [h] at hlen
    simp at hlen

/-- A string equal to its own strip ends with a non-whitespace character. -/
theorem stripped_dropWhile_reverse {u : List Char} (h : pyStrip u = u) :
    u.reverse.dropWhile isSpaceC = u.reverse := by
  cases hu : u.reverse with
  | nil => rfl
  | cons c t =>
    apply List.dropWhile_cons_of_neg
    intro hws
    have hL : stripL u = u := stripped_dropWhile h
    have hR : stripR u = u := by
      have : pyStrip u = stripR u := by unfold pyStrip; rw [hL]
      rw [← this, h]
    have hlen : (stripR u).length ≤ t.length := by
      unfold stripR
      rw [hu, List.dropWhile_cons_of_pos hws, List.length_reverse]
      exact (List.dropWhile_sublist _).length_le
    rw [hR] at hlen
    have : u.length = t.length + 1 := by
      have := congrArg List.length hu
      simpa [List.length_reverse] using this
    omega

theorem dropWhile_idem {p : Char → Bool} (l : List Char) :
    (l.dropWhile p).dropWhile p = l.dropWhile p := by
  induction l with
  | nil => rfl
  | cons a t ih =>
    by_cases h : p a
    · rw [List.dropWhile_cons_of_pos h]
      exact ih
    · rw [List.dropWhile_cons_of_neg h, List.dropWhile_cons_of_neg h]

theorem head_false_of_dropWhile_eq_self {p : Char → Bool} {l : List Char}
    (h : l.dropWhile p = l) : ∀ c t, l = c :: t → p c = false := by
  intro c t hl
  subst hl
  by_contra hc
  rw [Bool.not_eq_false] at hc
  rw [List.dropWhile_cons_of_pos hc] at h
  have := congrArg List.length h
  have hle := (List.dropWhile_sublist (l := t) p).length_le
  simp at this
  omega

theorem dropWhile_of_isPrefix {p : Char → Bool} {X A : List Char}
    (h : X.dropWhile p = X) (hpre : A <+: X) : A.dropWhile p = A := by
  cases A with
  | nil => rfl
  | cons c t =>
    obtain ⟨r, hr⟩ := hpre
    exact List.dropWhile_cons_of_neg (by
      simp [head_false_of_dropWhile_eq_self h c (t ++ r) (by rw [← hr]; simp)])

theorem stripR_isPrefix (X : List Char) : stripR X <+: X :=
  ⟨(X.reverse.takeWhile isSpaceC).reverse, by
    unfold stripR
    rw [← List.reverse_append, List.takeWhile_append_dropWhile, List.reverse_reverse]⟩

theorem pyStrip_idem (l : List Char) : pyStrip (pyStrip l) = pyStrip l := by
  have h1 : stripL (pyStrip l) = pyStrip l := by
    unfold pyStrip stripL
    exact dropWhile_of_isPrefix (dropWhile_idem l) (stripR_isPrefix _)
  show stripR (stripL (pyStrip l)) = pyStrip l
  rw [h1]
  show stripR (stripR (stripL l)) = stripR (stripL l)
  unfold stripR
  rw [List.reverse_reverse]
  rw [dropWhile_idem]

theorem head?_append_left {fn : List Char} (X : List Char) {c : Char}
    (h : fn.head? = some c) : (fn ++ X).head? = some c := by
  cases fn with
  | nil => simp at h
  | cons a t => simp_all

theorem pyStrip_glue_nil {fn : List Char} (hfn : fn ≠ [])
    (hhead : ∀ c, fn.head? = some c → isSpaceC c = false)
    (hlast : ∀ c, fn.getLast? = some c → isSpaceC c = false) :
    pyStrip (fn ++ [' ']) = fn := by
  have hL : stripL (fn ++ [' ']) = fn ++ [' '] := by
    rcases fn with _ | ⟨c, t⟩
    · exact absurd rfl hfn
    · show List.dropWhile isSpaceC ((c :: t) ++ [' ']) = _
      rw [List.cons_append, List.dropWhile_cons_of_neg (by simp [hhead c rfl])]
  show stripR (stripL (fn ++ [' '])) = fn
  rw [hL]
  unfold stripR
  rw [List.reverse_append]
  simp only [List.reverse_cons, List.reverse_nil, List.nil_append, List.singleton_append]
  rw [List.dropWhile_cons_of_pos (by decide)]
  rw [dropWhile_eq_self_of_head (fun c hc => hlast c (by rwa [List.head?_reverse] at hc))]
  exact List.reverse_reverse fn

theorem pyStrip_glue_cons {fn u : List Char} (hfn : fn ≠ [])
    (hhead : ∀ c, fn.head? = some c → isSpaceC c = false)
    (hu : pyStrip u = u) (hune : u ≠ []) :
    pyStrip (fn ++ ' ' :: u) = fn ++ ' ' :: u := by
  apply pyStrip_eq_self_of_ends
  · intro c hc
    rcases fn with _ | ⟨a, t⟩
    · exact absurd rfl hfn
    · rw [List.cons_append] at hc
      simp only [List.head?_cons, Option.some.injEq] at hc
      exact hc ▸ hhead a rfl
  · intro c hc
    rw [List.getLast?_eq_head?_reverse, List.reverse_append, List.reverse_cons] at hc
    rcases hr : u.reverse with _ | ⟨d, t'⟩
    · exact absurd (by simpa using congrArg List.reverse hr) hune
    · rw [hr, List.cons_append, List.cons_append, List.head?_cons] at hc
      have hd : isSpaceC d = false :=
        head_false_of_dropWhile_eq_self (stripped_dropWhile_reverse hu) d t' hr
      injection hc with hc
      exact hc ▸ hd

theorem digitChar_digit {m : ℕ} (h : m < 10) : isDigitC (Nat.digitChar m) = true := by
  interval_cases m <;> decide

theorem digitChar_val {m : ℕ} (h : m < 10) : (Nat.digitChar m).toNat - 48 = m := by
  interval_cases m <;> decide

theorem digitsToNat_append_singleton (l : List Char) (c : Char) :
    digitsToNat (l ++ [c]) = 10 * digitsToNat l + (c.toNat - 48) := by
  unfold digitsToNat
  rw [List.foldl_append]
  rfl

theorem natDigitsAux_spec : ∀ {fuel n : ℕ}, n < fuel →
    natDigitsAux fuel n ≠ [] ∧ (∀ c ∈ natDigitsAux fuel n, isDigitC c = true) ∧
      digitsToNat (natDigitsAux fuel n) = n := by
  intro fuel
  induction fuel with
  | zero => intro n hn; omega
  | succ f ih =>
    intro n hn
    by_cases h10 : n < 10
    · simp only [natDigitsAux, if_pos h10]
      refine ⟨by simp, ?_, ?_⟩
      · intro c hc
        rw [List.mem_singleton] at hc
        exact hc ▸ digitChar_digit h10
      · show digitsToNat ([] ++ [Nat.digitChar n]) = n
        rw [digitsToNat_append_singleton]
        simp [digitsToNat, digitChar_val h10]
    · have hrec : n / 10 < f := by
        have h1 : n / 10 < n := Nat.div_lt_self (by omega) (by norm_num)
        omega
      obtain ⟨ih1, ih2, ih3⟩ := ih hrec
      simp only [natDigitsAux, if_neg h10]
      refine ⟨by simp, ?_, ?_⟩
      · intro c hc
        rcases List.mem_append.1 hc with hc | hc
        · exact ih2 c hc
        · rw [List.mem_singleton] at hc
          exact hc ▸ digitChar_digit (Nat.mod_lt _ (by norm_num))
      · rw [digitsToNat_append_singleton, ih3, digitChar_val (Nat.mod_lt _ (by norm_num))]
        omega

theorem natDigits_ne_nil (n : ℕ) : natDigits n ≠ [] :=
  (natDigitsAux_spec (Nat.lt_succ_self n)).1

theorem natDigits_all_digit {n : ℕ} : ∀ c ∈ natDigits n, isDigitC c = true :=
  (natDigitsAux_spec (Nat.lt_succ_self n)).2.1

theorem digitsToNat_natDigits (n : ℕ) : digitsToNat (natDigits n) = n :=
  (natDigitsAux_spec (Nat.lt_succ_self n)).2.2

theorem mem_of_head? {l : List Char} {c : Char} (h : l.head? = some c) : c ∈ l := by
  cases l with
  | nil => simp at h
  | cons a t =>
    simp only [List.head?_cons, Option.some.injEq] at h
    exact h ▸ List.mem_cons_self _ _

theorem mem_of_getLast? {l : List Char} {c : Char} (h : l.getLast? = some c) : c ∈ l := by
  rw [List.getLast?_eq_head?_reverse] at h
  exact List.mem_reverse.1 (mem_of_head? h)

theorem pyStrip_of_run {D : List Char} (hD : ∀ c ∈ D, isDigitC c = true) : pyStrip D = D :=
  pyStrip_eq_self_of_ends
    (fun c hc => digit_not_space (hD c (mem_of_head? hc)))
    (fun c hc => digit_not_space (hD c (mem_of_getLast? hc)))

theorem contains_false_of_not_mem {l : List Char} {x : Char} (h : x ∉ l) :
    l.contains x = false := by
  rw [← Bool.not_eq_true]
  intro hc
  exact h (List.elem_iff.1 hc)

theorem contains_true_of_mem {l : List Char} {x : Char} (h : x ∈ l) :
    l.contains x = true := List.elem_iff.2 h

theorem not_space_mem_run {D : List Char} (hD : ∀ c ∈ D, isDigitC c = true) : ' ' ∉ D := by
  intro h
  have := hD _ h
  revert this
  decide

theorem not_slash_mem_run {D : List Char} (hD : ∀ c ∈ D, isDigitC c = true) : '/' ∉ D := by
  intro h
  have := hD _ h
  revert this
  decide

/-- `pyMatch` on a pure digit run: only the integer alternative fires and it
consumes everything. -/
theorem pyMatch_digits_nil {D : List Char} (hD : ∀ c ∈ D, isDigitC c = true)
    (hne : D ≠ []) : pyMatch D = some D := by
  have htw : D.takeWhile isDigitC = D := List.takeWhile_eq_self_iff.2 hD
  have hdw : D.dropWhile isDigitC = [] := List.dropWhile_eq_nil_iff.2 hD
  have e1 : matchAlt1 D = none := by
    simp only [matchAlt1, htw, hdw]
    rw [if_neg (by simpa using hne)]
    simp [List.takeWhile_nil, List.dropWhile_nil]
  have e2 : matchAlt2 D = none := by
    simp only [matchAlt2, hdw]
  have e3 : matchAlt3 D = none := by
    simp only [matchAlt3, htw, hdw]
    rw [if_neg (by simpa using hne)]
  simp only [pyMatch, e1, e2, e3, matchAlt4, htw]
  rw [if_neg (by simpa using hne)]

theorem takeWhile_nil_of_head {R : List Char} {p : Char → Bool}
    (hR : ∀ c r, R = c :: r → p c = false) : R.takeWhile p = [] := by
  rcases hRc : R with _ | ⟨c, r⟩
  · rfl
  · exact List.takeWhile_cons_of_neg (by simp [hR c r hRc])

/-- `pyMatch` on a digit run glued to a capture-safe unit: the integer
alternative fires and consumes exactly the digit run. -/
theorem pyMatch_digits_glue {D u : List Char} (hD : ∀ c ∈ D, isDigitC c = true)
    (hne : D ≠ []) (hu1 : pyStrip u = u) (hsafe : safeUnit u = true) :
    pyMatch (D ++ ' ' :: u) = some D := by
  have htw : (D ++ ' ' :: u).takeWhile isDigitC = D := by
    rw [List.takeWhile_append_of_pos hD, List.takeWhile_cons_of_neg (by decide)]
    simp
  have hdw : (D ++ ' ' :: u).dropWhile isDigitC = ' ' :: u := by
    rw [List.dropWhile_append_of_pos hD, List.dropWhile_cons_of_neg (by decide)]
  have huh : u.takeWhile isSpaceC = [] :=
    takeWhile_nil_of_head (fun c r hc =>
      head_false_of_dropWhile_eq_self (stripped_dropWhile hu1) c r hc)
  have hudw : u.dropWhile isSpaceC = u := stripped_dropWhile hu1
  have e1 : matchAlt1 (D ++ ' ' :: u) = none := by
    simp only [matchAlt1, htw, hdw]
    rw [if_neg (by simpa using hne)]
    rw [List.takeWhile_cons_of_pos (by decide), List.dropWhile_cons_of_pos (by decide),
      huh, hudw]
    unfold safeUnit at hsafe
    rcases hr : u.dropWhile isDigitC with _ | ⟨c1, v⟩
    · simp
    · rw [hr] at hsafe
      by_cases hc1 : c1 = '/'
      · subst hc1
        rcases v with _ | ⟨c2, v'⟩
        · simp
        · simp only [Bool.not_eq_true'] at hsafe
          have htwc : (c2 :: v').takeWhile isDigitC = [] :=
            List.takeWhile_cons_of_neg (by simp [hsafe])
          simp [htwc]
      · split
        · next r4 heq =>
          rw [List.cons.injEq] at heq
          exact absurd heq.1 hc1
        · rfl
  have e2 : matchAlt2 (D ++ ' ' :: u) = none := by
    simp only [matchAlt2, hdw]
    split
    · next r2 heq =>
      rw [List.cons.injEq] at heq
      exact absurd heq.1 (by decide)
    · rfl
  have e3 : matchAlt3 (D ++ ' ' :: u) = none := by
    simp only [matchAlt3, htw, hdw]
    rw [if_neg (by simpa using hne)]
    split
    · next r2 heq =>
      rw [List.cons.injEq] at heq
      exact absurd heq.1 (by decide)
    · rfl
  simp only [pyMatch, e1, e2, e3, matchAlt4, htw]
  rw [if_neg (by simpa using hne)]

/-- `pyMatch` on a formatted mixed number `"<digits> <a>/<b>"` glued to a
trailing rest whose head is not a digit: the first alternative fires and
consumes exactly the mixed number. -/
theorem pyMatch_mixed {D R : List Char} {a b : Char} (hD : ∀ c ∈ D, isDigitC c = true)
    (hne : D ≠ []) (ha : isDigitC a = true) (hb : isDigitC b = true)
    (hR : ∀ c r, R = c :: r → isDigitC c = false) :
    pyMatch (D ++ ' ' :: a :: '/' :: b :: R) = some (D ++ ' ' :: a :: '/' :: [b]) := by
  have hRtw : R.takeWhile isDigitC = [] := takeWhile_nil_of_head hR
  have e1 : matchAlt1 (D ++ ' ' :: a :: '/' :: b :: R) =
      some (D ++ ' ' :: a :: '/' :: [b]) := by
    simp only [matchAlt1]
    rw [List.takeWhile_append_of_pos hD, List.takeWhile_cons_of_neg (by decide)]
    rw [List.dropWhile_append_of_pos hD, List.dropWhile_cons_of_neg (by decide)]
    rw [List.takeWhile_cons_of_pos (by decide),
      List.takeWhile_cons_of_neg (by simp [digit_not_space ha])]
    rw [List.dropWhile_cons_of_pos (by decide),
      List.dropWhile_cons_of_neg (by simp [digit_not_space ha])]
    rw [List.takeWhile_cons_of_pos ha, List.takeWhile_cons_of_neg (by decide)]
    rw [List.dropWhile_cons_of_pos ha, List.dropWhile_cons_of_neg (by decide)]
    simp only [List.append_nil]
    rw [if_neg (by simp [hne])]
    split
    · next heq =>
      rw [List.takeWhile_cons_of_pos hb] at heq
      simp at heq
    · rw [List.takeWhile_cons_of_pos hb, hRtw]
      simp
  unfold pyMatch
  rw [e1]

/-- `pyMatch` on a formatted bare fraction `"<a>/<b>"` glued to a trailing
rest whose head is not a digit. -/
theorem pyMatch_frac {R : List Char} {a b : Char} (ha : isDigitC a = true)
    (hb : isDigitC b = true) (hR : ∀ c r, R = c :: r → isDigitC c = false) :
    pyMatch (a :: '/' :: b :: R) = some [a, '/', b] := by
  have hRtw : R.takeWhile isDigitC = [] := takeWhile_nil_of_head hR
  have e1 : matchAlt1 (a :: '/' :: b :: R) = some [a, '/', b] := by
    simp only [matchAlt1]
    rw [List.takeWhile_cons_of_pos ha, List.takeWhile_cons_of_neg (by decide)]
    rw [List.dropWhile_cons_of_pos ha, List.dropWhile_cons_of_neg (by decide)]
    rw [List.takeWhile_cons_of_neg (by decide)]
    rw [List.dropWhile_cons_of_neg (by decide)]
    rw [List.takeWhile_cons_of_neg (by decide)]
    rw [List.dropWhile_cons_of_neg (by decide)]
    simp only [List.append_nil]
    rw [if_neg (by simp)]
    split
    · next heq =>
      rw [List.takeWhile_cons_of_pos hb] at heq
      simp at heq
    · rw [List.takeWhile_cons_of_pos hb, hRtw]
      simp
  unfold pyMatch
  rw [e1]

/-- `pyMatch` on a formatted two-decimal number `"<digits>.<c1><c2>"` glued
to a trailing rest whose head is not a digit: the decimal alternative fires. -/
theorem pyMatch_dec {D R : List Char} {c1 c2 : Char} (hD : ∀ c ∈ D, isDigitC c = true)
    (hne : D ≠ []) (h1 : isDigitC c1 = true) (h2 : isDigitC c2 = true)
    (hR : ∀ c r, R = c :: r → isDigitC c = false) :
    pyMatch (D ++ '.' :: c1 :: c2 :: R) = some (D ++ '.' :: [c1, c2]) := by
  have hRtw : R.takeWhile isDigitC = [] := takeWhile_nil_of_head hR
  have htw : (D ++ '.' :: c1 :: c2 :: R).takeWhile isDigitC = D := by
    rw [List.takeWhile_append_of_pos hD, List.takeWhile_cons_of_neg (by decide)]
    simp
  have hdw : (D ++ '.' :: c1 :: c2 :: R).dropWhile isDigitC = '.' :: c1 :: c2 :: R := by
    rw [List.dropWhile_append_of_pos hD, List.dropWhile_cons_of_neg (by decide)]
  have e1 : matchAlt1 (D ++ '.' :: c1 :: c2 :: R) = none := by
    simp only [matchAlt1, htw, hdw]
    rw [if_neg (by simpa using hne)]
    rw [List.takeWhile_cons_of_neg (by decide), List.dropWhile_cons_of_neg (by decide)]
    rw [List.takeWhile_cons_of_neg (by decide), List.dropWhile_cons_of_neg (by decide)]
    rfl
  have e2 : matchAlt2 (D ++ '.' :: c1 :: c2 :: R) = some (D ++ '.' :: [c1, c2]) := by
    simp only [matchAlt2, htw, hdw]
    rw [List.takeWhile_cons_of_pos h1, List.takeWhile_cons_of_pos h2, hRtw]
    rw [if_neg (by simp)]
  unfold pyMatch
  rw [e1, e2]

theorem pyStrip_space_unit {u : List Char} (hu1 : pyStrip u = u) :
    pyStrip (' ' :: u) = u := by
  have hL : stripL (' ' :: u) = u := by
    show List.dropWhile isSpaceC (' ' :: u) = u
    rw [List.dropWhile_cons_of_pos (by decide)]
    exact stripped_dropWhile hu1
  show stripR (stripL (' ' :: u)) = u
  rw [hL]
  have h2 : stripR (stripL u) = stripR u := by
    unfold stripL
    rw [stripped_dropWhile hu1]
  calc stripR u = stripR (stripL u) := h2.symm
    _ = pyStrip u := rfl
    _ = u := hu1

theorem pyFloatMag_digits {D : List Char} (hD : ∀ c ∈ D, isDigitC c = true) (hne : D ≠ []) :
    pyFloatMag D = some ((digitsToNat D : ℚ)) := by
  simp only [pyFloatMag, List.takeWhile_eq_self_iff.2 hD, List.dropWhile_eq_nil_iff.2 hD]
  rw [if_neg (by simpa using hne)]

theorem pyFloat_run {D : List Char} (hD : ∀ c ∈ D, isDigitC c = true) (hne : D ≠ []) :
    pyFloat D = some ((digitsToNat D : ℚ)) := by
  unfold pyFloat
  have hs := pyStrip_of_run hD
  split
  · next r heq =>
    rw [hs] at heq
    exact absurd (hD '-' (heq ▸ List.mem_cons_self _ _)) (by decide)
  · next r heq =>
    rw [hs] at heq
    exact absurd (hD '+' (heq ▸ List.mem_cons_self _ _)) (by decide)
  · next hne1 hne2 =>
    rw [hs]
    exact pyFloatMag_digits hD hne

theorem pyFloat_dec {D fp : List Char} (hD : ∀ c ∈ D, isDigitC c = true) (hne : D ≠ [])
    (hfp : ∀ c ∈ fp, isDigitC c = true) (hfpne : fp ≠ []) :
    pyFloat (D ++ '.' :: fp) =
      some ((digitsToNat D : ℚ) + (digitsToNat fp : ℚ) / 10 ^ fp.length) := by
  have hall : ∀ c ∈ D ++ '.' :: fp, isDigitC c = true ∨ c = '.' := by
    intro c hc
    rcases List.mem_append.1 hc with hc | hc
    · exact Or.inl (hD c hc)
    · rcases List.mem_cons.1 hc with rfl | hc
      · exact Or.inr rfl
      · exact Or.inl (hfp c hc)
  have hs : pyStrip (D ++ '.' :: fp) = D ++ '.' :: fp := by
    apply pyStrip_eq_self_of_ends
    · intro c hc
      rcases hall c (mem_of_head? hc) with h | rfl
      · exact digit_not_space h
      · decide
    · intro c hc
      rcases hall c (mem_of_getLast? hc) with h | rfl
      · exact digit_not_space h
      · decide
  have hmag : pyFloatMag (D ++ '.' :: fp) =
      some ((digitsToNat D : ℚ) + (digitsToNat fp : ℚ) / 10 ^ fp.length) := by
    simp only [pyFloatMag]
    rw [List.takeWhile_append_of_pos hD, List.takeWhile_cons_of_neg (by decide)]
    rw [List.dropWhile_append_of_pos hD, List.dropWhile_cons_of_neg (by decide)]
    have h1 : fp.isEmpty = false := by simp [hfpne]
    have h2 : fp.all isDigitC = true := List.all_eq_true.2 hfp
    split
    · next heq => exact absurd heq (by simp)
    · next fp2 heq =>
      rw [List.cons.injEq] at heq
      rw [← heq.2, if_pos (by rw [h2, h1]; simp)]
      simp
    · next hn1 hn2 => exact absurd rfl (hn2 fp)
  unfold pyFloat
  split
  · next r heq =>
    rw [hs] at heq
    rcases hall '-' (heq ▸ List.mem_cons_self _ _) with h | h
    · exact absurd h (by decide)
    · exact absurd h (by decide)
  · next r heq =>
    rw [hs] at heq
    rcases hall '+' (heq ▸ List.mem_cons_self _ _) with h | h
    · exact absurd h (by decide)
    · exact absurd h (by decide)
  · next hne1 hne2 =>
    rw [hs]
    exact hmag

theorem pyInt_digit {a : Char} (ha : isDigitC a = true) :
    pyInt [a] = some ((a.toNat - 48 : ℕ) : ℤ) := by
  unfold pyInt
  have hs : pyStrip [a] = [a] := pyStrip_of_run (by simpa using ha)
  split
  · next heq => rw [hs] at heq; exact absurd heq (by simp)
  · next r heq =>
    rw [hs] at heq
    rw [List.cons.injEq] at heq
    exact absurd (heq.1 ▸ ha) (by decide)
  · next r heq =>
    rw [hs] at heq
    rw [List.cons.injEq] at heq
    exact absurd (heq.1 ▸ ha) (by decide)
  · next hne1 hne2 hne3 =>
    rw [hs]
    rw [if_pos (by simp [ha])]
    simp [digitsToNat]

theorem splitSlash_three {a b : Char} (ha : a ≠ '/') (hb : b ≠ '/') :
    splitSlash [a, '/', b] = [[a], [b]] := by
  simp [splitSlash, ha, hb]

theorem pySplitWsAux_nil (fuel : ℕ) : pySplitWsAux fuel [] = [] := by
  cases fuel <;> simp [pySplitWsAux]

theorem pySplitWs_two {A B : List Char} (hA : A ≠ []) (hAa : ∀ c ∈ A, isSpaceC c = false)
    (hB : B ≠ []) (hBa : ∀ c ∈ B, isSpaceC c = false) :
    pySplitWs (A ++ ' ' :: B) = [A, B] := by
  obtain ⟨a, A', rfl⟩ : ∃ a A', A = a :: A' := by
    rcases A with _ | ⟨a, A'⟩
    · exact absurd rfl hA
    · exact ⟨a, A', rfl⟩
  obtain ⟨b, B', rfl⟩ : ∃ b B', B = b :: B' := by
    rcases B with _ | ⟨b, B'⟩
    · exact absurd rfl hB
    · exact ⟨b, B', rfl⟩
  have hAnw : ∀ c ∈ (a :: A'), isNotSpaceC c = true := by
    intro c hc
    simp [isNotSpaceC, hAa c hc]
  have hBnw : ∀ c ∈ (b :: B'), isNotSpaceC c = true := by
    intro c hc
    simp [isNotSpaceC, hBa c hc]
  have hlen : ((a :: A') ++ ' ' :: (b :: B')).length + 1 =
      ((A'.length + B'.length + 2) + 1) + 1 := by
    simp [List.length_append]
    omega
  unfold pySplitWs
  rw [hlen]
  rw [pySplitWsAux]
  simp only [List.cons_append]
  rw [List.dropWhile_cons_of_neg (by simp [hAa a (List.mem_cons_self _ _)])]
  rw [if_neg (by simp)]
  rw [List.takeWhile_cons_of_pos (hAnw a (List.mem_cons_self _ _))]
  rw [show (A' ++ ' ' :: (b :: B')).takeWhile isNotSpaceC = A' by
    rw [List.takeWhile_append_of_pos (fun c hc => hAnw c (List.mem_cons_of_mem _ hc)),
      List.takeWhile_cons_of_neg (by decide)]
    simp]
  rw [List.dropWhile_cons_of_pos (hAnw a (List.mem_cons_self _ _))]
  rw [show (A' ++ ' ' :: (b :: B')).dropWhile isNotSpaceC = ' ' :: (b :: B') by
    rw [List.dropWhile_append_of_pos (fun c hc => hAnw c (List.mem_cons_of_mem _ hc)),
      List.dropWhile_cons_of_neg (by decide)]]
  rw [pySplitWsAux]
  rw [List.dropWhile_cons_of_pos (by decide)]
  rw [List.dropWhile_cons_of_neg (by simp [hBa b (List.mem_cons_self _ _)])]
  rw [if_neg (by simp)]
  rw [List.takeWhile_cons_of_pos (hBnw b (List.mem_cons_self _ _))]
  rw [show B'.takeWhile isNotSpaceC = B' from
    List.takeWhile_eq_self_iff.2 (fun c hc => hBnw c (List.mem_cons_of_mem _ hc))]
  rw [List.dropWhile_cons_of_pos (hBnw b (List.mem_cons_self _ _))]
  rw [show B'.dropWhile isNotSpaceC = [] from
    List.dropWhile_eq_nil_iff.2 (fun c hc => hBnw c (List.mem_cons_of_mem _ hc))]
  rw [pySplitWsAux_nil]

theorem asString_data (l : List Char) : (l.asString).data = l := rfl

theorem lowerC_glued {u : List Char} (hu2 : lowerC u = u) {l : List Char}
    (h : ∀ c ∈ l, isDigitC c = true ∨ c = ' ' ∨ c = '/' ∨ c = '.' ∨ c ∈ u) :
    lowerC l = l := by
  apply map_eq_self_iff_forall.2
  intro c hc
  rcases h c hc with h | rfl | rfl | rfl | hcu
  · exact toLower_of_digit h
  · decide
  · decide
  · decide
  · exact map_eq_self_iff_forall.1 hu2 c hcu

/-- Parsing the formatted output `"<digits> <unit>"`: round-trips to the
digit run's value and the unit. -/
theorem parse_glued_int (n : ℕ) {u : List Char} (hu1 : pyStrip u = u)
    (hu2 : lowerC u = u) (hsafe : safeUnit u = true) :
    parse_quantity ((pyStrip (natDigits n ++ ' ' :: u)).asString) =
      .ok (some ((n : ℚ)), u.asString) := by
  have hD := @natDigits_all_digit n
  have hne := natDigits_ne_nil n
  have hcsp : (natDigits n).contains ' ' = false :=
    contains_false_of_not_mem (not_space_mem_run hD)
  have hcsl : (natDigits n).contains '/' = false :=
    contains_false_of_not_mem (not_slash_mem_run hD)
  have hps : pyStrip (natDigits n) = natDigits n := pyStrip_of_run hD
  rcases hu0 : u with _ | ⟨c0, u'⟩
  · -- empty unit: the trailing space is stripped away
    have hout : pyStrip (natDigits n ++ ' ' :: ([] : List Char)) = natDigits n :=
      pyStrip_glue_nil hne
        (fun c hc => digit_not_space (hD c (mem_of_head? hc)))
        (fun c hc => digit_not_space (hD c (mem_of_getLast? hc)))
    rw [hout]
    simp only [parse_quantity, asString_data]
    rw [hps, lowerC_glued (u := []) rfl (fun c hc => Or.inl (hD c hc))]
    rw [pyMatch_digits_nil hD hne]
    simp only [hps]
    rw [hcsp, hcsl]
    simp only [Bool.false_and, Bool.if_false_left, Bool.not_false, Bool.true_and]
    rw [pyFloat_run hD hne]
    simp only [List.drop_length]
    rw [digitsToNat_natDigits]
    rfl
  · rw [← hu0]
    have hune : u ≠ [] := by rw [hu0]; simp
    have hout : pyStrip (natDigits n ++ ' ' :: u) = natDigits n ++ ' ' :: u :=
      pyStrip_glue_cons hne
        (fun c hc => digit_not_space (hD c (mem_of_head? hc))) hu1 hune
    rw [hout]
    simp only [parse_quantity, asString_data]
    have hlow : lowerC (natDigits n ++ ' ' :: u) = natDigits n ++ ' ' :: u := by
      apply lowerC_glued hu2
      intro c hc
      rcases List.mem_append.1 hc with hc | hc
      · exact Or.inl (hD c hc)
      · rcases List.mem_cons.1 hc with rfl | hc
        · exact Or.inr (Or.inl rfl)
        · exact Or.inr (Or.inr (Or.inr (Or.inr hc)))
    rw [hout, hlow]
    rw [pyMatch_digits_glue hD hne hu1 hsafe]
    simp only [hps]
    rw [hcsp, hcsl]
    simp only [Bool.false_and, Bool.if_false_left, Bool.not_false, Bool.true_and]
    rw [pyFloat_run hD hne]
    rw [List.drop_left]
    rw [pyStrip_space_unit hu1, digitsToNat_natDigits]
    simp

theorem pyStrip_frac {a b : Char} (ha : isDigitC a = true) (hb : isDigitC b = true) :
    pyStrip [a, '/', b] = [a, '/', b] := by
  apply pyStrip_eq_self_of_ends
  · intro c hc
    simp only [List.head?_cons, Option.some.injEq] at hc
    exact hc ▸ digit_not_space ha
  · intro c hc
    rw [List.getLast?_eq_head?_reverse] at hc
    simp only [List.reverse_cons, List.reverse_nil, List.nil_append, List.cons_append,
      List.head?_cons, Option.some.injEq] at hc
    exact hc ▸ digit_not_space hb

/-- Parsing the formatted output `"<a>/<b> <unit>"`: round-trips to the
fraction value and the unit. -/
theorem parse_glued_frac {a b : Char} (ha : isDigitC a = true) (hb : isDigitC b = true)
    (hb0 : (b.toNat - 48 : ℕ) ≠ 0) {u : List Char} (hu1 : pyStrip u = u)
    (hu2 : lowerC u = u) (hsafe : safeUnit u = true) :
    parse_quantity ((pyStrip ([a, '/', b] ++ ' ' :: u)).asString) =
      .ok (some ((((a.toNat - 48 : ℕ) : ℤ) : ℚ) / (((b.toNat - 48 : ℕ) : ℤ) : ℚ)),
        u.asString) := by
  have hfrac : ∀ c ∈ [a, '/', b], isDigitC c = true ∨ c = '/' := by
    intro c hc
    rcases List.mem_cons.1 hc with rfl | hc
    · exact Or.inl ha
    · rcases List.mem_cons.1 hc with rfl | hc
      · exact Or.inr rfl
      · rcases List.mem_cons.1 hc with rfl | hc
        · exact Or.inl hb
        · simp at hc
  have hps : pyStrip [a, '/', b] = [a, '/', b] := pyStrip_frac ha hb
  have hcsp : ([a, '/', b] : List Char).contains ' ' = false := by
    apply contains_false_of_not_mem
    intro hmem
    rcases hfrac ' ' hmem with h | h
    · exact absurd h (by decide)
    · exact absurd h (by decide)
  have hcsl : ([a, '/', b] : List Char).contains '/' = true :=
    contains_true_of_mem (by simp)
  have hsplit : splitSlash [a, '/', b] = [[a], [b]] :=
    splitSlash_three (digit_ne ha).2.2.1 (digit_ne hb).2.2.1
  have hval : parse_quantity (([a, '/', b] : List Char).asString ) =
      .ok (some ((((a.toNat - 48 : ℕ) : ℤ) : ℚ) / (((b.toNat - 48 : ℕ) : ℤ) : ℚ)),
        ([] : List Char).asString) := by
    simp only [parse_quantity, asString_data]
    rw [hps, lowerC_glued (u := []) rfl (fun c hc => by
      rcases hfrac c hc with h | rfl
      · exact Or.inl h
      · exact Or.inr (Or.inr (Or.inl rfl)))]
    rw [pyMatch_frac ha hb (fun c r h => by simp at h)]
    have : (List.takeWhile isDigitC [a, '/', b]) = [a] := by
      rw [List.takeWhile_cons_of_pos ha, List.takeWhile_cons_of_neg (by decide)]
    simp only [hps, hcsp, hcsl, hsplit, pyInt_digit ha, pyInt_digit hb, Bool.false_and,
      Bool.true_and, List.drop_length, Int.natCast_eq_zero, hb0, if_false, Bool.false_eq_true,
      ite_false, ite_true]
    rfl
  rcases hu0 : u with _ | ⟨c0, u'⟩
  · have hout : pyStrip ([a, '/', b] ++ ' ' :: ([] : List Char)) = [a, '/', b] :=
      pyStrip_glue_nil (by simp)
        (fun c hc => by
          simp only [List.head?_cons, Option.some.injEq] at hc
          exact hc ▸ digit_not_space ha)
        (fun c hc => by
          rw [List.getLast?_eq_head?_reverse] at hc
          simp only [List.reverse_cons, List.reverse_nil, List.nil_append, List.cons_append,
            List.head?_cons, Option.some.injEq] at hc
          exact hc ▸ digit_not_space hb)
    rw [hout]
    exact hval
  · rw [← hu0]
    have hune : u ≠ [] := by rw [hu0]; simp
    have hout : pyStrip ([a, '/', b] ++ ' ' :: u) = [a, '/', b] ++ ' ' :: u :=
      pyStrip_glue_cons (by simp)
        (fun c hc => by
          simp only [List.head?_cons, Option.some.injEq] at hc
          exact hc ▸ digit_not_space ha) hu1 hune
    rw [hout]
    simp only [parse_quantity, asString_data]
    have hlow : lowerC ([a, '/', b] ++ ' ' :: u) = [a, '/', b] ++ ' ' :: u := by
      apply lowerC_glued hu2
      intro c hc
      rcases List.mem_append.1 hc with hc | hc
      · rcases hfrac c hc with h | rfl
        · exact Or.inl h
        · exact Or.inr (Or.inr (Or.inl rfl))
      · rcases List.mem_cons.1 hc with rfl | hc
        · exact Or.inr (Or.inl rfl)
        · exact Or.inr (Or.inr (Or.inr (Or.inr hc)))
    rw [hout, hlow]
    have hmatch : pyMatch ([a, '/', b] ++ ' ' :: u) = some [a, '/', b] := by
      show pyMatch (a :: '/' :: b :: (' ' :: u)) = some [a, '/', b]
      exact pyMatch_frac ha hb (fun c r h => by
        rw [List.cons.injEq] at h
        exact h.1 ▸ (by decide))
    rw [hmatch]
    have hdrop : List.drop (([a, '/', b] : List Char)).length ([a, '/', b] ++ ' ' :: u) =
        ' ' :: u := List.drop_left _ _
    simp only [hps, hcsp, hcsl, hsplit, pyInt_digit ha, pyInt_digit hb, Bool.false_and,
      Bool.true_and, hdrop, pyStrip_space_unit hu1, Int.natCast_eq_zero, hb0, if_false,
      Bool.false_eq_true, ite_false, ite_true]

/-- Parsing the formatted output `"<digits> <a>/<b> <unit>"`: round-trips to
whole + fraction and the unit. -/
theorem parse_glued_mixed (n : ℕ) {a b : Char} (ha : isDigitC a = true)
    (hb : isDigitC b = true) (hb0 : (b.toNat - 48 : ℕ) ≠ 0) {u : List Char}
    (hu1 : pyStrip u = u) (hu2 : lowerC u = u) :
    parse_quantity ((pyStrip ((natDigits n ++ ' ' :: [a, '/', b]) ++ ' ' :: u)).asString) =
      .ok (some ((n : ℚ) + (((a.toNat - 48 : ℕ) : ℤ) : ℚ) / (((b.toNat - 48 : ℕ) : ℤ) : ℚ)),
        u.asString) := by
  have hD := @natDigits_all_digit n
  have hDne := natDigits_ne_nil n
  set D := natDigits n with hDdef
  have hfn_head : ∀ c, (D ++ ' ' :: [a, '/', b]).head? = some c → isSpaceC c = false := by
    intro c hc
    rcases hd : D with _ | ⟨d0, D'⟩
    · exact absurd hd hDne
    · rw [hd, List.cons_append, List.head?_cons, Option.some.injEq] at hc
      exact hc ▸ digit_not_space (hD d0 (hd ▸ List.mem_cons_self _ _))
  have hfn_last : ∀ c, (D ++ ' ' :: [a, '/', b]).getLast? = some c → isSpaceC c = false := by
    intro c hc
    rw [List.getLast?_eq_head?_reverse, List.reverse_append] at hc
    simp only [List.reverse_cons, List.reverse_nil, List.nil_append, List.cons_append,
      List.append_assoc, List.head?_cons, Option.some.injEq] at hc
    exact hc ▸ digit_not_space hb
  have hfn_ne : D ++ ' ' :: [a, '/', b] ≠ [] := by simp
  have hps : pyStrip (D ++ ' ' :: [a, '/', b]) = D ++ ' ' :: [a, '/', b] :=
    pyStrip_eq_self_of_ends hfn_head hfn_last
  have hcsp : (D ++ ' ' :: [a, '/', b]).contains ' ' = true :=
    contains_true_of_mem (List.mem_append.2 (Or.inr (List.mem_cons_self _ _)))
  have hcsl : (D ++ ' ' :: [a, '/', b]).contains '/' = true :=
    contains_true_of_mem (List.mem_append.2 (Or.inr (by simp)))
  have hsplitws : pySplitWs (D ++ ' ' :: [a, '/', b]) = [D, [a, '/', b]] :=
    pySplitWs_two hDne (fun c hc => digit_not_space (hD c hc)) (by simp)
      (fun c hc => by
        rcases List.mem_cons.1 hc with rfl | hc
        · exact digit_not_space ha
        · rcases List.mem_cons.1 hc with rfl | hc
          · decide
          · rcases List.mem_cons.1 hc with rfl | hc
            · exact digit_not_space hb
            · simp at hc)
  have hsplit : splitSlash [a, '/', b] = [[a], [b]] :=
    splitSlash_three (digit_ne ha).2.2.1 (digit_ne hb).2.2.1
  have hval : digitsToNat D = n := digitsToNat_natDigits n
  have hlowfn : ∀ c ∈ D ++ ' ' :: [a, '/', b],
      isDigitC c = true ∨ c = ' ' ∨ c = '/' ∨ c = '.' ∨ c ∈ ([] : List Char) := by
    intro c hc
    rcases List.mem_append.1 hc with hc | hc
    · exact Or.inl (hD c hc)
    · rcases List.mem_cons.1 hc with rfl | hc
      · exact Or.inr (Or.inl rfl)
      · rcases List.mem_cons.1 hc with rfl | hc
        · exact Or.inl ha
        · rcases List.mem_cons.1 hc with rfl | hc
          · exact Or.inr (Or.inr (Or.inl rfl))
          · rcases List.mem_cons.1 hc with rfl | hc
            · exact Or.inl hb
            · simp at hc
  rcases hu0 : u with _ | ⟨c0, u'⟩
  · have hout : pyStrip ((D ++ ' ' :: [a, '/', b]) ++ ' ' :: ([] : List Char)) =
        D ++ ' ' :: [a, '/', b] :=
      pyStrip_glue_nil hfn_ne hfn_head hfn_last
    rw [hout]
    simp only [parse_quantity, asString_data]
    rw [hps, lowerC_glued (u := []) rfl hlowfn]
    have hmatch : pyMatch (D ++ ' ' :: [a, '/', b]) = some (D ++ ' ' :: [a, '/', b]) := by
      have := pyMatch_mixed (R := []) hD hDne ha hb (fun c r h => by simp at h)
      simpa using this
    rw [hmatch]
    simp only [hps, hcsp, hcsl, hsplitws, hsplit, Bool.true_and, if_true,
      pyFloat_run hD hDne, pyInt_digit ha, pyInt_digit hb, Int.natCast_eq_zero, hb0,
      if_false, ite_false, ite_true, Bool.true_eq_false, List.drop_length, hval]
    rfl
  · rw [← hu0]
    have hune : u ≠ [] := by rw [hu0]; simp
    have hout : pyStrip ((D ++ ' ' :: [a, '/', b]) ++ ' ' :: u) =
        (D ++ ' ' :: [a, '/', b]) ++ ' ' :: u :=
      pyStrip_glue_cons hfn_ne hfn_head hu1 hune
    rw [hout]
    simp only [parse_quantity, asString_data]
    have hlow : lowerC ((D ++ ' ' :: [a, '/', b]) ++ ' ' :: u) =
        (D ++ ' ' :: [a, '/', b]) ++ ' ' :: u := by
      apply lowerC_glued hu2
      intro c hc
      rcases List.mem_append.1 hc with hc | hc
      · rcases hlowfn c hc with h | h | h | h | h
        · exact Or.inl h
        · exact Or.inr (Or.inl h)
        · exact Or.inr (Or.inr (Or.inl h))
        · exact Or.inr (Or.inr (Or.inr (Or.inl h)))
        · simp at h
      · rcases List.mem_cons.1 hc with rfl | hc
        · exact Or.inr (Or.inl rfl)
        · exact Or.inr (Or.inr (Or.inr (Or.inr hc)))
    rw [hout, hlow]
    have hmatch : pyMatch ((D ++ ' ' :: [a, '/', b]) ++ ' ' :: u) =
        some (D ++ ' ' :: [a, '/', b]) := by
      have := pyMatch_mixed (R := ' ' :: u) hD hDne ha hb (fun c r h => by
        rw [List.cons.injEq] at h
        exact h.1 ▸ (by decide))
      simpa using this
    rw [hmatch]
    have hdrop : List.drop ((D ++ ' ' :: [a, '/', b]) : List Char).length
        ((D ++ ' ' :: [a, '/', b]) ++ ' ' :: u) = ' ' :: u := List.drop_left _ _
    simp only [hps, hcsp, hcsl, hsplitws, hsplit, Bool.true_and, if_true,
      pyFloat_run hD hDne, pyInt_digit ha, pyInt_digit hb, Int.natCast_eq_zero, hb0,
      if_false, ite_false, ite_true, Bool.true_eq_false, hdrop,
      pyStrip_space_unit hu1, hval]

/-- Parsing the formatted output `"<digits>.<c1><c2> <unit>"`: round-trips to
the decimal value and the unit. -/
theorem parse_glued_dec (n : ℕ) {c1 c2 : Char} (h1 : isDigitC c1 = true)
    (h2 : isDigitC c2 = true) {u : List Char}
    (hu1 : pyStrip u = u) (hu2 : lowerC u = u) :
    parse_quantity ((pyStrip ((natDigits n ++ '.' :: [c1, c2]) ++ ' ' :: u)).asString) =
      .ok (some ((n : ℚ) + (digitsToNat [c1, c2] : ℚ) / 10 ^ 2), u.asString) := by
  have hD := @natDigits_all_digit n
  have hDne := natDigits_ne_nil n
  set D := natDigits n with hDdef
  have hval : digitsToNat D = n := digitsToNat_natDigits n
  have hfn_head : ∀ c, (D ++ '.' :: [c1, c2]).head? = some c → isSpaceC c = false := by
    intro c hc
    rcases hd : D with _ | ⟨d0, D'⟩
    · exact absurd hd hDne
    · rw [hd, List.cons_append, List.head?_cons, Option.some.injEq] at hc
      exact hc ▸ digit_not_space (hD d0 (hd ▸ List.mem_cons_self _ _))
  have hfn_last : ∀ c, (D ++ '.' :: [c1, c2]).getLast? = some c → isSpaceC c = false := by
    intro c hc
    rw [List.getLast?_eq_head?_reverse, List.reverse_append] at hc
    simp only [List.reverse_cons, List.reverse_nil, List.nil_append, List.cons_append,
      List.append_assoc, List.head?_cons, Option.some.injEq] at hc
    exact hc ▸ digit_not_space h2
  have hfn_ne : D ++ '.' :: [c1, c2] ≠ [] := by simp
  have hps : pyStrip (D ++ '.' :: [c1, c2]) = D ++ '.' :: [c1, c2] :=
    pyStrip_eq_self_of_ends hfn_head hfn_last
  have hclass : ∀ c ∈ D ++ '.' :: [c1, c2], isDigitC c = true ∨ c = '.' := by
    intro c hc
    rcases List.mem_append.1 hc with hc | hc
    · exact Or.inl (hD c hc)
    · rcases List.mem_cons.1 hc with rfl | hc
      · exact Or.inr rfl
      · rcases List.mem_cons.1 hc with rfl | hc
        · exact Or.inl h1
        · rcases List.mem_cons.1 hc with rfl | hc
          · exact Or.inl h2
          · simp at hc
  have hcsp : (D ++ '.' :: [c1, c2]).contains ' ' = false := by
    apply contains_false_of_not_mem
    intro hmem
    rcases hclass ' ' hmem with h | h
    · exact absurd h (by decide)
    · exact absurd h (by decide)
  have hcsl : (D ++ '.' :: [c1, c2]).contains '/' = false := by
    apply contains_false_of_not_mem
    intro hmem
    rcases hclass '/' hmem with h | h
    · exact absurd h (by decide)
    · exact absurd h (by decide)
  have hfloat : pyFloat (D ++ '.' :: [c1, c2]) =
      some ((digitsToNat D : ℚ) + (digitsToNat [c1, c2] : ℚ) / 10 ^ ([c1, c2] : List Char).length) :=
    pyFloat_dec hD hDne (fun c hc => by
      rcases List.mem_cons.1 hc with rfl | hc
      · exact h1
      · rcases List.mem_cons.1 hc with rfl | hc
        · exact h2
        · simp at hc) (by simp)
  have hlowfn : ∀ c ∈ D ++ '.' :: [c1, c2],
      isDigitC c = true ∨ c = ' ' ∨ c = '/' ∨ c = '.' ∨ c ∈ ([] : List Char) := by
    intro c hc
    rcases hclass c hc with h | rfl
    · exact Or.inl h
    · exact Or.inr (Or.inr (Or.inr (Or.inl rfl)))
  rcases hu0 : u with _ | ⟨c0, u'⟩
  · have hout : pyStrip ((D ++ '.' :: [c1, c2]) ++ ' ' :: ([] : List Char)) =
        D ++ '.' :: [c1, c2] :=
      pyStrip_glue_nil hfn_ne hfn_head hfn_last
    rw [hout]
    simp only [parse_quantity, asString_data]
    rw [hps, lowerC_glued (u := []) rfl hlowfn]
    have hmatch : pyMatch (D ++ '.' :: [c1, c2]) = some (D ++ '.' :: [c1, c2]) := by
      have := pyMatch_dec (R := []) hD hDne h1 h2 (fun c r h => by simp at h)
      simpa using this
    rw [hmatch]
    simp only [hps, hcsp, hcsl, Bool.false_and, Bool.false_eq_true, if_false, ite_false,
      hfloat, List.drop_length, hval]
    rfl
  · rw [← hu0]
    have hune : u ≠ [] := by rw [hu0]; simp
    have hout : pyStrip ((D ++ '.' :: [c1, c2]) ++ ' ' :: u) =
        (D ++ '.' :: [c1, c2]) ++ ' ' :: u :=
      pyStrip_glue_cons hfn_ne hfn_head hu1 hune
    rw [hout]
    simp only [parse_quantity, asString_data]
    have hlow : lowerC ((D ++ '.' :: [c1, c2]) ++ ' ' :: u) =
        (D ++ '.' :: [c1, c2]) ++ ' ' :: u := by
      apply lowerC_glued hu2
      intro c hc
      rcases List.mem_append.1 hc with hc | hc
      · rcases hclass c hc with h | rfl
        · exact Or.inl h
        · exact Or.inr (Or.inr (Or.inr (Or.inl rfl)))
      · rcases List.mem_cons.1 hc with rfl | hc
        · exact Or.inr (Or.inl rfl)
        · exact Or.inr (Or.inr (Or.inr (Or.inr hc)))
    rw [hout, hlow]
    have hmatch : pyMatch ((D ++ '.' :: [c1, c2]) ++ ' ' :: u) =
        some (D ++ '.' :: [c1, c2]) := by
      have := pyMatch_dec (R := ' ' :: u) hD hDne h1 h2 (fun c r h => by
        rw [List.cons.injEq] at h
        exact h.1 ▸ (by decide))
      simpa using this
    rw [hmatch]
    have hdrop : List.drop ((D ++ '.' :: [c1, c2]) : List Char).length
        ((D ++ '.' :: [c1, c2]) ++ ' ' :: u) = ' ' :: u := List.drop_left _ _
    simp only [hps, hcsp, hcsl, Bool.false_and, Bool.false_eq_true, if_false, ite_false,
      hfloat, hdrop, pyStrip_space_unit hu1, hval]
    rfl

/-! ## Arithmetic facts about the snapped value -/

theorem ratFloor_eq (q : ℚ) : Rat.floor q = ⌊q⌋ := by
  rw [Rat.floor_def' q, ← Rat.floor_def]

theorem pyIntTrunc_of_nonneg {x : ℚ} (hx : 0 ≤ x) : pyIntTrunc x = ⌊x⌋ := by
  unfold pyIntTrunc
  rw [if_pos hx, ratFloor_eq]

theorem pyIntTrunc_nonneg {x : ℚ} (hx : 0 ≤ x) : 0 ≤ pyIntTrunc x := by
  rw [pyIntTrunc_of_nonneg hx]
  exact Int.floor_nonneg.2 hx

theorem rhe_eq_floor_cases (q : ℚ) : rhe q = ⌊q⌋ ∨ rhe q = ⌊q⌋ + 1 := by
  simp only [rhe, ratFloor_eq]
  split
  · exact Or.inl rfl
  · split
    · exact Or.inr rfl
    · split
      · exact Or.inl rfl
      · exact Or.inr rfl

theorem rhe_err (q : ℚ) : |(rhe q : ℚ) - q| ≤ 1/2 := by
  have hfl : (⌊q⌋ : ℚ) ≤ q := Int.floor_le q
  have hfu : q - 1 < (⌊q⌋ : ℚ) := by
    have := Int.lt_floor_add_one q
    linarith
  simp only [rhe, ratFloor_eq]
  split
  · next h => rw [abs_le]; constructor <;> linarith
  · next h =>
    push_neg at h
    split
    · next h2 => push_cast; rw [abs_le]; constructor <;> linarith
    · next h2 =>
      push_neg at h2
      have : q - (⌊q⌋ : ℚ) = 1/2 := le_antisymm h2 h
      split
      · rw [abs_le]; constructor <;> linarith
      · push_cast; rw [abs_le]; constructor <;> linarith

theorem rhe_nonneg {q : ℚ} (hq : 0 ≤ q) : 0 ≤ rhe q := by
  rcases rhe_eq_floor_cases q with h | h <;> rw [h]
  · exact Int.floor_nonneg.2 hq
  · have := Int.floor_nonneg.2 hq
    omega

theorem snap_nonneg {x : ℚ} (hx : 0 ≤ x) : 0 ≤ snap x := by
  have hw : (0 : ℚ) ≤ ((pyIntTrunc x : ℤ) : ℚ) := by
    exact_mod_cast pyIntTrunc_nonneg hx
  simp only [snap]
  split
  · exact hx
  · split
    · linarith
    · split
      · linarith
      · split
        · linarith
        · have h1 : (0 : ℤ) ≤ rhe (100 * x) := rhe_nonneg (by linarith)
          have : (0 : ℚ) ≤ ((rhe (100 * x) : ℤ) : ℚ) := by exact_mod_cast h1
          positivity

theorem snap_err {x : ℚ} (hx : 0 ≤ x) : |snap x - x| < 1/100 := by
  simp only [snap]
  split
  · next h => simp
  · split
    · next h h2 =>
      rw [show ((pyIntTrunc x : ℤ) : ℚ) + 1/2 - x = -(x - ((pyIntTrunc x : ℤ) : ℚ) - 1/2) by ring,
        abs_neg]
      rw [show x - ((pyIntTrunc x : ℤ) : ℚ) - 1/2 = x - ((pyIntTrunc x : ℤ) : ℚ) - 1/2 from rfl]
      have := h2
      rw [show (x - ((pyIntTrunc x : ℤ) : ℚ)) - 1/2 = (x - ((pyIntTrunc x : ℤ) : ℚ) - 1/2) from rfl] at this
      exact this
    · split
      · next h h2 h4 =>
        rw [show ((pyIntTrunc x : ℤ) : ℚ) + 1/4 - x = -(x - ((pyIntTrunc x : ℤ) : ℚ) - 1/4) by ring,
          abs_neg]
        exact h4
      · split
        · next h h2 h4 h34 =>
          rw [show ((pyIntTrunc x : ℤ) : ℚ) + 3/4 - x = -(x - ((pyIntTrunc x : ℤ) : ℚ) - 3/4) by ring,
            abs_neg]
          exact h34
        · have h100 := rhe_err (100 * x)
          have habs : |((rhe (100 * x) : ℤ) : ℚ) / 100 - x| =
              |((rhe (100 * x) : ℤ) : ℚ) - 100 * x| / 100 := by
            rw [show ((rhe (100 * x) : ℤ) : ℚ) / 100 - x =
              (((rhe (100 * x) : ℤ) : ℚ) - 100 * x) / 100 by ring]
            rw [abs_div]
            norm_num
          rw [habs]
          have hmul := mul_le_mul_of_nonneg_right h100 (show (0:ℚ) ≤ 1/100 by norm_num)
          calc |((rhe (100 * x) : ℤ) : ℚ) - 100 * x| / 100
              = |((rhe (100 * x) : ℤ) : ℚ) - 100 * x| * (1/100) := by ring
            _ ≤ (1/2) * (1/100) := hmul
            _ < 1/100 := by norm_num

theorem snap_hundredth {x : ℚ} (hx : 0 ≤ x) : ∃ k : ℕ, snap x = (k : ℚ) / 100 := by
  have hw := pyIntTrunc_nonneg hx
  simp only [snap]
  split
  · next h =>
    refine ⟨(100 * pyIntTrunc x).toNat, ?_⟩
    have hnn : (0:ℤ) ≤ 100 * pyIntTrunc x := by omega
    rw [show (((100 * pyIntTrunc x).toNat : ℕ) : ℚ) = ((100 * pyIntTrunc x : ℤ) : ℚ) from by
      exact_mod_cast Int.toNat_of_nonneg hnn]
    have hx_eq : x = ((pyIntTrunc x : ℤ) : ℚ) := sub_eq_zero.1 h
    conv_lhs => rw [hx_eq]
    push_cast
    ring
  · split
    · refine ⟨(100 * pyIntTrunc x + 50).toNat, ?_⟩
      have hnn : (0:ℤ) ≤ 100 * pyIntTrunc x + 50 := by omega
      rw [show (((100 * pyIntTrunc x + 50).toNat : ℕ) : ℚ) =
          ((100 * pyIntTrunc x + 50 : ℤ) : ℚ) from by
        exact_mod_cast Int.toNat_of_nonneg hnn]
      push_cast
      ring
    · split
      · refine ⟨(100 * pyIntTrunc x + 25).toNat, ?_⟩
        have hnn : (0:ℤ) ≤ 100 * pyIntTrunc x + 25 := by omega
        rw [show (((100 * pyIntTrunc x + 25).toNat : ℕ) : ℚ) =
            ((100 * pyIntTrunc x + 25 : ℤ) : ℚ) from by
          exact_mod_cast Int.toNat_of_nonneg hnn]
        push_cast
        ring
      · split
        · refine ⟨(100 * pyIntTrunc x + 75).toNat, ?_⟩
          have hnn : (0:ℤ) ≤ 100 * pyIntTrunc x + 75 := by omega
          rw [show (((100 * pyIntTrunc x + 75).toNat : ℕ) : ℚ) =
              ((100 * pyIntTrunc x + 75 : ℤ) : ℚ) from by
            exact_mod_cast Int.toNat_of_nonneg hnn]
          push_cast
          ring
        · refine ⟨(rhe (100 * x)).toNat, ?_⟩
          have hnn : (0:ℤ) ≤ rhe (100 * x) := rhe_nonneg (by linarith)
          rw [show ((((rhe (100 * x)).toNat : ℕ)) : ℚ) = ((rhe (100 * x) : ℤ) : ℚ) from by
            exact_mod_cast Int.toNat_of_nonneg hnn]

theorem twoDig_val {m : ℕ} (hm : m < 100) : digitsToNat (twoDig m) = m := by
  unfold twoDig digitsToNat
  simp only [List.foldl_cons, List.foldl_nil]
  have h1 : (Nat.digitChar (m / 10)).toNat - 48 = m / 10 := digitChar_val (by omega)
  have h2 : (Nat.digitChar (m % 10)).toNat - 48 = m % 10 := digitChar_val (Nat.mod_lt _ (by norm_num))
  rw [h1, h2]
  omega

theorem intRepr_nonneg {w : ℤ} (hw : 0 ≤ w) : intRepr w = natDigits w.toNat := by
  unfold intRepr
  rw [if_neg (by omega)]

/-- The central round-trip: parsing the formatted rendering of a nonnegative
magnitude with a capture-safe, stripped, lowercase unit yields the snapped
value and the same unit. -/
theorem parse_format {x : ℚ} (hx : 0 ≤ x) {u : List Char} (hu1 : pyStrip u = u)
    (hu2 : lowerC u = u) (hsafe : safeUnit u = true) :
    parse_quantity (format_scaled_quantity (some x) u.asString) =
      .ok (some (snap x), u.asString) := by
  have hw := pyIntTrunc_nonneg hx
  have htn : (((pyIntTrunc x).toNat : ℕ) : ℚ) = ((pyIntTrunc x : ℤ) : ℚ) := by
    exact_mod_cast Int.toNat_of_nonneg hw
  show parse_quantity ((pyStrip (formattedNum x ++ ' ' :: u)).asString) =
    .ok (some (snap x), u.asString)
  simp only [formattedNum, snap]
  by_cases h0 : x - ((pyIntTrunc x : ℤ) : ℚ) = 0
  · rw [if_pos h0, if_pos h0]
    rw [intRepr_nonneg hw]
    rw [parse_glued_int _ hu1 hu2 hsafe]
    rw [show (((pyIntTrunc x).toNat : ℕ) : ℚ) = x by rw [htn]; linarith [sub_eq_zero.1 h0]]
  · rw [if_neg h0, if_neg h0]
    by_cases h2 : |x - ((pyIntTrunc x : ℤ) : ℚ) - 1/2| < 1/100
    · rw [if_pos h2, if_pos h2]
      by_cases hwpos : pyIntTrunc x > 0
      · have hform : halfForm (pyIntTrunc x) ['1', '/', '2'] =
            natDigits (pyIntTrunc x).toNat ++ ' ' :: ['1', '/', '2'] := by
          unfold halfForm
          rw [if_pos hwpos, intRepr_nonneg hw]
          exact pyStrip_glue_cons (natDigits_ne_nil _)
            (fun c hc => digit_not_space (natDigits_all_digit c (mem_of_head? hc)))
            (pyStrip_frac (by decide) (by decide)) (by simp)
        rw [hform]
        rw [parse_glued_mixed _ (by decide) (by decide) (by decide) hu1 hu2]
        have e1 : ('1'.toNat - 48 : ℕ) = 1 := by decide
        have e2 : ('2'.toNat - 48 : ℕ) = 2 := by decide
        rw [e1, e2, htn]
        norm_num
      · have hw0 : pyIntTrunc x = 0 := by omega
        have hform : halfForm (pyIntTrunc x) ['1', '/', '2'] = ['1', '/', '2'] := by
          unfold halfForm
          rw [if_neg hwpos]
          simp only [List.nil_append]
          exact pyStrip_space_unit (pyStrip_frac (by decide) (by decide))
        rw [hform]
        rw [parse_glued_frac (by decide) (by decide) (by decide) hu1 hu2 hsafe]
        have e1 : ('1'.toNat - 48 : ℕ) = 1 := by decide
        have e2 : ('2'.toNat - 48 : ℕ) = 2 := by decide
        rw [e1, e2, hw0]
        norm_num
    · rw [if_neg h2, if_neg h2]
      by_cases h4 : |x - ((pyIntTrunc x : ℤ) : ℚ) - 1/4| < 1/100
      · rw [if_pos h4, if_pos h4]
        by_cases hwpos : pyIntTrunc x > 0
        · have hform : halfForm (pyIntTrunc x) ['1', '/', '4'] =
              natDigits (pyIntTrunc x).toNat ++ ' ' :: ['1', '/', '4'] := by
            unfold halfForm
            rw [if_pos hwpos, intRepr_nonneg hw]
            exact pyStrip_glue_cons (natDigits_ne_nil _)
              (fun c hc => digit_not_space (natDigits_all_digit c (mem_of_head? hc)))
              (pyStrip_frac (by decide) (by decide)) (by simp)
          rw [hform]
          rw [parse_glued_mixed _ (by decide) (by decide) (by decide) hu1 hu2]
          have e1 : ('1'.toNat - 48 : ℕ) = 1 := by decide
          have e2 : ('4'.toNat - 48 : ℕ) = 4 := by decide
          rw [e1, e2, htn]
          norm_num
        · have hw0 : pyIntTrunc x = 0 := by omega
          have hform : halfForm (pyIntTrunc x) ['1', '/', '4'] = ['1', '/', '4'] := by
            unfold halfForm
            rw [if_neg hwpos]
            simp only [List.nil_append]
            exact pyStrip_space_unit (pyStrip_frac (by decide) (by decide))
          rw [hform]
          rw [parse_glued_frac (by decide) (by decide) (by decide) hu1 hu2 hsafe]
          have e1 : ('1'.toNat - 48 : ℕ) = 1 := by decide
          have e2 : ('4'.toNat - 48 : ℕ) = 4 := by decide
          rw [e1, e2, hw0]
          norm_num
      · rw [if_neg h4, if_neg h4]
        by_cases h34 : |x - ((pyIntTrunc x : ℤ) : ℚ) - 3/4| < 1/100
        · rw [if_pos h34, if_pos h34]
          by_cases hwpos : pyIntTrunc x > 0
          · have hform : halfForm (pyIntTrunc x) ['3', '/', '4'] =
                natDigits (pyIntTrunc x).toNat ++ ' ' :: ['3', '/', '4'] := by
              unfold halfForm
              rw [if_pos hwpos, intRepr_nonneg hw]
              exact pyStrip_glue_cons (natDigits_ne_nil _)
                (fun c hc => digit_not_space (natDigits_all_digit c (mem_of_head? hc)))
                (pyStrip_frac (by decide) (by decide)) (by simp)
            rw [hform]
            rw [parse_glued_mixed _ (by decide) (by decide) (by decide) hu1 hu2]
            have e1 : ('3'.toNat - 48 : ℕ) = 3 := by decide
            have e2 : ('4'.toNat - 48 : ℕ) = 4 := by decide
            rw [e1, e2, htn]
            norm_num
          · have hw0 : pyIntTrunc x = 0 := by omega
            have hform : halfForm (pyIntTrunc x) ['3', '/', '4'] = ['3', '/', '4'] := by
              unfold halfForm
              rw [if_neg hwpos]
              simp only [List.nil_append]
              exact pyStrip_space_unit (pyStrip_frac (by decide) (by decide))
            rw [hform]
            rw [parse_glued_frac (by decide) (by decide) (by decide) hu1 hu2 hsafe]
            have e1 : ('3'.toNat - 48 : ℕ) = 3 := by decide
            have e2 : ('4'.toNat - 48 : ℕ) = 4 := by decide
            rw [e1, e2, hw0]
            norm_num
        · rw [if_neg h34, if_neg h34]
          have hk0 : (0:ℤ) ≤ rhe (100 * x) := rhe_nonneg (by linarith)
          have hfmt : fmt2 x = natDigits ((rhe (100 * x)).toNat / 100) ++
              '.' :: twoDig ((rhe (100 * x)).toNat % 100) := by
            simp only [fmt2]
            rw [if_neg (not_lt.2 hx), abs_of_nonneg hx]
            simp only [List.nil_append]
          rw [hfmt]
          rw [show twoDig ((rhe (100 * x)).toNat % 100) =
            [Nat.digitChar ((rhe (100 * x)).toNat % 100 / 10),
             Nat.digitChar ((rhe (100 * x)).toNat % 100 % 10)] from rfl]
          rw [parse_glued_dec _ (digitChar_digit (by omega)) (digitChar_digit (by omega))
            hu1 hu2]
          rw [show ([Nat.digitChar ((rhe (100 * x)).toNat % 100 / 10),
             Nat.digitChar ((rhe (100 * x)).toNat % 100 % 10)] : List Char) =
             twoDig ((rhe (100 * x)).toNat % 100) from rfl]
          rw [twoDig_val (Nat.mod_lt _ (by norm_num))]
          have hksplit := Nat.div_add_mod (rhe (100 * x)).toNat 100
          have hcast : (((rhe (100 * x)).toNat : ℕ) : ℚ) = ((rhe (100 * x) : ℤ) : ℚ) := by
            exact_mod_cast Int.toNat_of_nonneg hk0
          have : (((rhe (100 * x)).toNat / 100 : ℕ) : ℚ) +
              (((rhe (100 * x)).toNat % 100 : ℕ) : ℚ) / 10 ^ 2 =
              ((rhe (100 * x) : ℤ) : ℚ) / 100 := by
            rw [← hcast]
            have h100 : (((rhe (100 * x)).toNat : ℕ) : ℚ) =
                100 * (((rhe (100 * x)).toNat / 100 : ℕ) : ℚ) +
                (((rhe (100 * x)).toNat % 100 : ℕ) : ℚ) := by
              exact_mod_cast hksplit.symm
            rw [h100]
            ring
          rw [this]

theorem lowered_strip_drop (Y : List Char) (n : ℕ) :
    lowerC (pyStrip ((lowerC Y).drop n)) = pyStrip ((lowerC Y).drop n) := by
  apply map_eq_self_iff_forall.2
  intro c hc
  have hc2 : c ∈ lowerC Y := List.drop_subset _ _ (mem_pyStrip hc)
  rcases List.mem_map.1 hc2 with ⟨d, -, rfl⟩
  exact toLower_toLower d

/-- The unit returned by a successful parse is already stripped and
lowercase. -/
theorem parse_unit_props {s : String} {m : ℚ} {u : String}
    (h : parse_quantity s = .ok (some m, u)) :
    pyStrip u.data = u.data ∧ lowerC u.data = u.data := by
  simp only [parse_quantity] at h
  split at h
  · exact absurd h (by simp)
  · next mm hmatch =>
    split at h
    · split at h
      · split at h
        · exact absurd h (by simp)
        · split at h
          · split at h
            · split at h
              · exact absurd h (by simp)
              · injection h with h
                injection h with h1 h2
                subst h2
                rw [asString_data]
                exact ⟨pyStrip_idem _, lowered_strip_drop _ _⟩
            · exact absurd h (by simp)
          · exact absurd h (by simp)
      · exact absurd h (by simp)
    · split at h
      · split at h
        · split at h
          · split at h
            · exact absurd h (by simp)
            · injection h with h
              injection h with h1 h2
              subst h2
              rw [asString_data]
              exact ⟨pyStrip_idem _, lowered_strip_drop _ _⟩
          · exact absurd h (by simp)
        · exact absurd h (by simp)
      · split at h
        · injection h with h
          injection h with h1 h2
          subst h2
          rw [asString_data]
          exact ⟨pyStrip_idem _, lowered_strip_drop _ _⟩
        · exact absurd h (by simp)

/-- Double-snap bound: scaling by a positive integer factor, snapping,
unscaling and snapping again stays strictly within the 0.01 tolerance. -/
theorem snap_double_bound {m : ℚ} (hm : 0 ≤ m) {f : ℕ} (hf : 2 ≤ f) :
    |snap (snap (m * f) / f) - m| < 1/100 := by
  have hf0 : (0:ℚ) < f := by
    have h : (0:ℕ) < f := by omega
    exact_mod_cast h
  have hden : (0:ℚ) < 100 * f := by
    have : (0:ℚ) < 100 := by norm_num
    exact mul_pos this hf0
  have hmf : (0:ℚ) ≤ m * f := by positivity
  have hs1 := snap_err hmf
  obtain ⟨k, hk⟩ := snap_hundredth hmf
  set y := snap (m * f) / f with hy
  have hy0 : (0:ℚ) ≤ y := div_nonneg (snap_nonneg hmf) (le_of_lt hf0)
  have hs2 := snap_err hy0
  obtain ⟨k2, hk2⟩ := snap_hundredth hy0
  have hd2 : |snap y - y| = |(k2 : ℚ) * f - k| / (100 * f) := by
    rw [hk2, hy, hk]
    rw [show (k2 : ℚ)/100 - (k:ℚ)/100/f = ((k2:ℚ)*f - k)/(100*f) by field_simp; ring]
    rw [abs_div, abs_of_pos hden]
  have hq2z : |(k2 : ℚ) * f - k| = ((|(k2 : ℤ) * f - k| : ℤ) : ℚ) := by
    push_cast
    ring_nf
  have hb_int : |(k2 : ℤ) * f - k| ≤ (f : ℤ) - 1 := by
    by_contra hcon
    push_neg at hcon
    have h1 : ((f : ℚ)) ≤ ((|(k2 : ℤ) * f - k| : ℤ) : ℚ) := by
      exact_mod_cast (by omega : (f : ℤ) ≤ |(k2 : ℤ) * f - k|)
    have h2 : (f : ℚ) / (100 * f) ≤ |snap y - y| := by
      rw [hd2, hq2z]
      calc (f : ℚ)/(100*f) = (f : ℚ) * (100*(f:ℚ))⁻¹ := div_eq_mul_inv _ _
        _ ≤ ((|(k2 : ℤ) * f - k| : ℤ) : ℚ) * (100*(f:ℚ))⁻¹ :=
            mul_le_mul_of_nonneg_right h1 (le_of_lt (inv_pos.2 hden))
        _ = ((|(k2 : ℤ) * f - k| : ℤ) : ℚ) / (100 * f) := (div_eq_mul_inv _ _).symm
    have h3 : (f : ℚ) / (100 * f) = 1/100 := by
      field_simp
      ring
    rw [h3] at h2
    linarith
  have hb1 : |snap y - y| ≤ ((f:ℚ) - 1)/(100 * f) := by
    rw [hd2, hq2z]
    have h1 : ((|(k2 : ℤ) * f - k| : ℤ) : ℚ) ≤ (f:ℚ) - 1 := by
      have := hb_int
      push_cast
      exact_mod_cast hb_int
    calc ((|(k2 : ℤ) * f - k| : ℤ) : ℚ) / (100 * f)
        = ((|(k2 : ℤ) * f - k| : ℤ) : ℚ) * (100*(f:ℚ))⁻¹ := div_eq_mul_inv _ _
      _ ≤ ((f:ℚ) - 1) * (100*(f:ℚ))⁻¹ :=
          mul_le_mul_of_nonneg_right h1 (le_of_lt (inv_pos.2 hden))
      _ = ((f:ℚ) - 1)/(100 * f) := (div_eq_mul_inv _ _).symm
  have hym : y - m = (snap (m*f) - m*f)/f := by
    rw [hy]
    field_simp
    ring
  have hb2 : |y - m| < 1/(100 * f) := by
    rw [hym, abs_div, abs_of_pos hf0]
    have hmul := mul_lt_mul_of_pos_right hs1 (inv_pos.2 hf0)
    calc |snap (m*f) - m*f| / (f : ℚ)
        = |snap (m*f) - m*f| * ((f:ℚ))⁻¹ := div_eq_mul_inv _ _
      _ < (1/100) * ((f:ℚ))⁻¹ := hmul
      _ = 1/(100 * f) := by ring
  have hmain : |snap y - m| ≤ |snap y - y| + |y - m| := by
    calc |snap y - m| = |(snap y - y) + (y - m)| := by ring_nf
      _ ≤ |snap y - y| + |y - m| := abs_add _ _
  have hfin : ((f:ℚ) - 1)/(100*f) + 1/(100*f) = 1/100 := by
    field_simp
    ring
  linarith

theorem string_asString_data (s : String) : s.data.asString = s := by
  cases s
  rfl

/-- C4: the claim as stated is refuted by the counterexample theorem above;
this is the amended form. For every quantity string that parses to some
magnitude `m` whose unit is capture-safe (it does not begin with an optional
digit run followed by `/` and a digit, which re-parsing would capture as a
fraction), and every positive integer factor `f`, scaling by `f` (format then
re-parse) and then scaling by `1/f` yields a magnitude within `0.01` of `m`. -/
theorem inverse_scaling_integer_factor {s : String} {m : ℚ} {u : String}
    (hp : parse_quantity s = .ok (some m, u)) {f : ℕ} (hf : 1 ≤ f)
    (hsafe : safeUnit u.data = true) :
    ∃ s1 s2 m2 u2, scale_ingredient s (f : ℚ) = .ok s1 ∧
      scale_ingredient s1 (1 / (f : ℚ)) = .ok s2 ∧
      parse_quantity s2 = .ok (some m2, u2) ∧ |m2 - m| ≤ 1/100 := by
  rcases Nat.lt_or_ge f 2 with hf1 | hf2
  · have hfe : f = 1 := by omega
    subst hfe
    refine ⟨s, s, m, u, ?_, ?_, hp, by rw [sub_self, abs_zero]; norm_num⟩
    · simp only [scale_ingredient, hp]
      norm_num
    · simp only [scale_ingredient, hp]
      norm_num
  · have hm : 0 ≤ m := parse_nonneg_core hp
    obtain ⟨hu1, hu2⟩ := parse_unit_props hp
    have hfQ : (1:ℚ) < (f:ℚ) := by exact_mod_cast (by omega : 1 < f)
    have hf0 : (0:ℚ) < (f:ℚ) := lt_trans one_pos hfQ
    have hne1 : ((f:ℚ)) ≠ 1 := ne_of_gt hfQ
    have hinv_ne : (1/(f:ℚ)) ≠ 1 := ne_of_lt ((div_lt_one hf0).2 hfQ)
    have hus : u.data.asString = u := string_asString_data u
    have hx1 : (0:ℚ) ≤ m * (f:ℚ) := mul_nonneg hm hf0.le
    have h1 := parse_format hx1 hu1 hu2 hsafe
    rw [hus] at h1
    have e1 : scale_ingredient s ((f:ℕ) : ℚ) =
        .ok (format_scaled_quantity (some (m * (f:ℚ))) u) := by
      simp only [scale_ingredient, hp]
      rw [if_pos hne1]
    have e2 : scale_ingredient (format_scaled_quantity (some (m * (f:ℚ))) u)
        (1/((f:ℕ) : ℚ)) =
        .ok (format_scaled_quantity (some (snap (m * (f:ℚ)) * (1/(f:ℚ)))) u) := by
      simp only [scale_ingredient, h1]
      rw [if_pos hinv_ne]
    have hx2 : (0:ℚ) ≤ snap (m * (f:ℚ)) * (1/(f:ℚ)) :=
      mul_nonneg (snap_nonneg hx1) (by positivity)
    have h2 := parse_format hx2 hu1 hu2 hsafe
    rw [hus] at h2
    have hb := snap_double_bound hm hf2
    rw [← mul_one_div] at hb
    exact ⟨_, _, _, u, e1, e2, h2, le_of_lt hb⟩

theorem inverse_scaling_integer_factor_witness :
    ∃ s1 s2 m2 u2, scale_ingredient "2 cups" (((2:ℕ)) : ℚ) = .ok s1 ∧
      scale_ingredient s1 (1 / (((2:ℕ)) : ℚ)) = .ok s2 ∧
      parse_quantity s2 = .ok (some m2, u2) ∧ |m2 - (2:ℚ)| ≤ 1/100 :=
  inverse_scaling_integer_factor
    (show parse_quantity "2 cups" = .ok (some 2, "cups") from by decide)
    (by decide) (by decide)
